import Mathlib

/-!
# Verification of the task-scheduler recurrence engine

Shallow embedding of the recurrence engine of `src/main.go`:

* `NextDate` (Go `NextDate`, lines 65-112): given a reference date `now`, an
  anchor date string and a repeat-rule string, repeatedly advances the anchor by
  the rule's step while the formatted date compares `<=` (Go string comparison
  of `d.Format("20060102")`) with the formatted `now`.
* `normalizeDate` (shared body of `addTaskHandler` lines 154-175 and
  `updateTaskHandler` lines 283-304): the task-date normalization policy.

Dates are triples of numerals (year, month, day); Go's `time.Time` calendar
arithmetic (`AddDate`) is embedded on valid dates, and Go's `%04d%02d%02d`
formatting is embedded as lists of decimal digits, compared byte-wise exactly
as Go compares the formatted strings.  The advancement loop carries an explicit
fuel; exhaustion is reported as a distinguished error `NdErr.fuelOut`, and the
development proves the fuel is never exhausted for parseable inputs.
-/

/-- A calendar date as Go's `time.Time` presents it through
`Year/Month/Day`: year, month (1-12), day of month. -/
structure GoDate where
  year : Nat
  month : Nat
  day : Nat
deriving DecidableEq, Repr

/-- Gregorian leap-year rule, as implemented by Go's `time.isLeap`. -/
def isLeap (y : Nat) : Bool :=
  y % 4 = 0 && (y % 100 ≠ 0 || y % 400 = 0)

/-- Length of month `m` of year `y` (Go `time.daysIn`). -/
def daysInMonth (y m : Nat) : Nat :=
  if m = 2 then (if isLeap y then 29 else 28)
  else if m = 4 ∨ m = 6 ∨ m = 9 ∨ m = 11 then 30 else 31

/-- The date is a real calendar date (what `time.Parse` accepts and what all
values of Go's `time.Time` satisfy). -/
def ValidDate (d : GoDate) : Prop :=
  1 ≤ d.month ∧ d.month ≤ 12 ∧ 1 ≤ d.day ∧ d.day ≤ daysInMonth d.year d.month

instance : DecidablePred ValidDate := fun d => by
  unfold ValidDate; infer_instance

/-- Calendar successor of a date: Go `AddDate(0, 0, 1)` on a valid date. -/
def nextDay (dt : GoDate) : GoDate :=
  if dt.day < daysInMonth dt.year dt.month then ⟨dt.year, dt.month, dt.day + 1⟩
  else if dt.month < 12 then ⟨dt.year, dt.month + 1, 1⟩
  else ⟨dt.year + 1, 1, 1⟩

/-- Go `AddDate(0, 0, n)` for `n ≥ 0` on a valid date: `n` calendar-day
successors. -/
def addDays (n : Nat) (dt : GoDate) : GoDate :=
  nextDay^[n] dt

/-- Go `AddDate(1, 0, 0)`: `time.Date(y+1, m, d, ...)` with the day normalized
into the target year (Feb 29 of a leap year rolls to Mar 1). -/
def addOneYear (dt : GoDate) : GoDate :=
  if dt.day ≤ daysInMonth (dt.year + 1) dt.month then
    ⟨dt.year + 1, dt.month, dt.day⟩
  else
    ⟨dt.year + 1, dt.month + 1, dt.day - daysInMonth (dt.year + 1) dt.month⟩

/-- Go `AddDate(-1, 0, 0)`: `time.Date(y-1, m, d, ...)` normalized the same
way. -/
def subOneYear (dt : GoDate) : GoDate :=
  if dt.day ≤ daysInMonth (dt.year - 1) dt.month then
    ⟨dt.year - 1, dt.month, dt.day⟩
  else
    ⟨dt.year - 1, dt.month + 1, dt.day - daysInMonth (dt.year - 1) dt.month⟩

/-! ## Formatting (`d.Format("20060102")`) and Go string comparison -/

/-- Width-`k` big-endian decimal digit list of `n % 10^k`. -/
def natDigitsLen : Nat → Nat → List Nat
  | 0, _ => []
  | k + 1, n => (n / 10 ^ k) % 10 :: natDigitsLen k n

/-- Decimal digits of `n`, most significant first, with fuel; the standard
numeral produced by Go's `%d` for positive width-`≤ fuel` numbers. -/
def digitsAux : Nat → Nat → List Nat
  | 0, _ => []
  | f + 1, n => if n < 10 then [n] else digitsAux f (n / 10) ++ [n % 10]

/-- Decimal digits of `n`, most significant first (`[]` for `0`, which only
ever occurs under padding, where Go's `%0kd` also prints all zeros). -/
def natDigits (n : Nat) : List Nat := digitsAux n n

/-- Left-pad a digit list with zeros to width `w`: Go's `%0wd`. -/
def padZeros (w : Nat) (l : List Nat) : List Nat :=
  List.replicate (w - l.length) 0 ++ l

/-- The digit string `d.Format("20060102")`: `%04d` year, `%02d` month,
`%02d` day (Go prints all digits of a year wider than 4 digits). -/
def fmtD (dt : GoDate) : List Nat :=
  padZeros 4 (natDigits dt.year) ++ padZeros 2 (natDigits dt.month)
    ++ padZeros 2 (natDigits dt.day)

/-- Byte-wise `<=` of Go strings, on digit lists. -/
def lexLe : List Nat → List Nat → Bool
  | [], _ => true
  | _ :: _, [] => false
  | a :: as, b :: bs => if a < b then true else if b < a then false else lexLe as bs

/-- Byte-wise `<` of Go strings, on digit lists. -/
def lexLt : List Nat → List Nat → Bool
  | [], [] => false
  | [], _ :: _ => true
  | _ :: _, [] => false
  | a :: as, b :: bs => if a < b then true else if b < a then false else lexLt as bs

/-- The number `YYYYMMDD` denoted by the canonical form of a date; for valid
dates this is chronological order (year, then month, then day). -/
def key (dt : GoDate) : Nat := dt.year * 10000 + dt.month * 100 + dt.day

/-! ## Parsing (`time.Parse("20060102", s)`) -/

/-- Numeric value of a decimal digit character. -/
def charVal (c : Char) : Nat := c.toNat - 48

/-- `time.Parse("20060102", s)`: exactly four year digits, two month digits,
two day digits, month in 1..12 and day in range for the month (Go rejects
"month out of range" / "day out of range" / "extra text"). -/
def parseDate (s : String) : Option GoDate :=
  match s.toList with
  | [c0, c1, c2, c3, c4, c5, c6, c7] =>
    if (c0.isDigit && c1.isDigit && c2.isDigit && c3.isDigit &&
        c4.isDigit && c5.isDigit && c6.isDigit && c7.isDigit) then
      if 1 ≤ charVal c4 * 10 + charVal c5 ∧ charVal c4 * 10 + charVal c5 ≤ 12
          ∧ 1 ≤ charVal c6 * 10 + charVal c7
          ∧ charVal c6 * 10 + charVal c7 ≤ daysInMonth
              (((charVal c0 * 10 + charVal c1) * 10 + charVal c2) * 10 + charVal c3)
              (charVal c4 * 10 + charVal c5) then
        some ⟨((charVal c0 * 10 + charVal c1) * 10 + charVal c2) * 10 + charVal c3,
          charVal c4 * 10 + charVal c5, charVal c6 * 10 + charVal c7⟩
      else none
    else none
  | _ => none

/-- The string printed for a date (digits of `fmtD` as characters). -/
def formatStr (dt : GoDate) : String :=
  String.mk ((fmtD dt).map (fun n => Char.ofNat (48 + n)))

/-! ## Rule scanning -/

/-- Leading run of decimal digits as a number (`none` when there is no
digit): the digit part of `fmt`'s `%d` verb. -/
def leadDigits (l : List Char) : Option Nat :=
  let ds := l.takeWhile Char.isDigit
  if ds.isEmpty then none
  else some (ds.foldl (fun a c => 10 * a + charVal c) 0)

/-- The whitespace table of Go's `fmt` scanner (`fmt.isSpace`): tab through
carriage return, space, NEL, NBSP, and the Unicode space separators. -/
def goScanSpace (c : Char) : Bool :=
  (0x09 ≤ c.toNat && c.toNat ≤ 0x0d) || c.toNat = 0x20 || c.toNat = 0x85 ||
  c.toNat = 0xa0 || c.toNat = 0x1680 ||
  (0x2000 ≤ c.toNat && c.toNat ≤ 0x200a) ||
  c.toNat = 0x2028 || c.toNat = 0x2029 || c.toNat = 0x202f || c.toNat = 0x205f ||
  c.toNat = 0x3000

/-- What `Sscanf` skips between items: any `fmt` whitespace except newline
(`Sscanf` runs with `nlIsSpace = false`, so a newline stops the skipping and
the following conversion fails on it, in our case yielding the same
`invalid repeat rule` error as any other non-digit). -/
def skippedSpace (c : Char) : Bool := goScanSpace c && c.toNat ≠ 10

/-- `fmt.Sscanf(s, "d %d", &days)` applied after the leading `d`: the format
space and the `%d` verb skip whitespace (any `fmt` space except newline),
then an optional sign and at least one digit are read; trailing input is
ignored by `Sscanf`. -/
def scanInt (l : List Char) : Option Int :=
  match l.dropWhile skippedSpace with
  | '-' :: l2 => (leadDigits l2).map (fun n => -(n : Int))
  | '+' :: l2 => (leadDigits l2).map (fun n => (n : Int))
  | l1 => (leadDigits l1).map (fun n => (n : Int))

/-- `strings.Split(tok, ",")` on character lists. -/
def splitTok : List Char → List (List Char)
  | [] => [[]]
  | ',' :: rest => [] :: splitTok rest
  | c :: rest =>
    match splitTok rest with
    | [] => [[c]]
    | t :: ts => (c :: t) :: ts

/-- `strconv.Atoi`: optional single sign then only digits, at least one. -/
def atoiInt (tok : List Char) : Option Int :=
  let strict : List Char → Option Nat := fun l =>
    if l.isEmpty then none
    else if l.all Char.isDigit then
      some (l.foldl (fun a c => 10 * a + charVal c) 0)
    else none
  match tok with
  | '-' :: rest => (strict rest).map (fun n => -(n : Int))
  | '+' :: rest => (strict rest).map (fun n => (n : Int))
  | _ => (strict tok).map (fun n => (n : Int))

/-- The `w`-branch validation: `Sscanf(repeat, "w %s", &daysOfWeek)` (skip
whitespace — any `fmt` space except newline —, read a token delimited by any
`fmt` whitespace, fail when it is empty), then every comma-separated part
must `Atoi` to a value in 1..7. -/
def weekTokensOk (rest : List Char) : Bool :=
  let tok := (rest.dropWhile skippedSpace).takeWhile (fun c => !goScanSpace c)
  if tok.isEmpty then false
  else
    (splitTok tok).all (fun t =>
      match atoiInt t with
      | some v => 1 ≤ v && v ≤ 7
      | none => false)

/-! ## The advancement loop and `NextDate` -/

/-- The `for d.Format(dateFormat) <= now.Format(dateFormat)` loop with fuel:
while the formatted date compares `<=` the formatted `now`, advance by
`step`; `none` when the fuel runs out (proved unreachable below). -/
def loopIter (step : GoDate → GoDate) (now : GoDate) : Nat → GoDate → Option GoDate
  | 0, _ => none
  | f + 1, d =>
    if lexLe (fmtD d) (fmtD now) then loopIter step now f (step d)
    else some d

/-- Fuel for the advancement loops; the termination proof shows any loop
started from a parsed anchor exits after strictly fewer steps. -/
def FUEL : Nat := 100000000000

/-- Error outcomes of `NextDate`, one per `fmt.Errorf` site (`fuelOut` marks
loop-fuel exhaustion, proved unreachable). -/
inductive NdErr where
  | invalidDate
  | emptyRule
  | invalidRepeat
  | unsupportedRule
  | fuelOut
deriving DecidableEq, Repr

instance : DecidableEq (Except NdErr GoDate) := fun x y =>
  match x, y with
  | .ok a, .ok b =>
    if h : a = b then isTrue (by rw [h])
    else isFalse (by intro hc; exact h (Except.ok.inj hc))
  | .ok _, .error _ => isFalse (by intro hc; exact Except.noConfusion hc)
  | .error _, .ok _ => isFalse (by intro hc; exact Except.noConfusion hc)
  | .error a, .error b =>
    if h : a = b then isTrue (by rw [h])
    else isFalse (by intro hc; exact h (Except.error.inj hc))

/-- Go `NextDate(now, date, repeat)` (lines 65-112): parse the anchor, then the
`switch` tries `repeat == ""`, `repeat == "y"`, `strings.HasPrefix(repeat, "d ")`,
`strings.HasPrefix(repeat, "w ")` in order, advancing past `now` by the
matching rule's step. -/
def NextDate (now : GoDate) (date : String) (rep : String) : Except NdErr GoDate :=
  match parseDate date with
  | none => .error .invalidDate
  | some d =>
    let l := rep.toList
    if l = [] then .error .emptyRule
    else if l = ['y'] then
      match loopIter addOneYear now FUEL (addOneYear d) with
      | some r => .ok r
      | none => .error .fuelOut
    else if l.take 2 = ['d', ' '] then
      match scanInt (l.drop 2) with
      | none => .error .invalidRepeat
      | some days =>
        if days ≤ 0 ∨ 400 < days then .error .invalidRepeat
        else
          match loopIter (addDays days.toNat) now FUEL (addDays days.toNat d) with
          | some r => .ok r
          | none => .error .fuelOut
    else if l.take 2 = ['w', ' '] then
      if weekTokensOk (l.drop 2) then
        match loopIter (addDays 1) now FUEL (addDays 1 d) with
        | some r => .ok r
        | none => .error .fuelOut
      else .error .invalidRepeat
    else .error .unsupportedRule

/-! ## Task-date normalization (`addTaskHandler` / `updateTaskHandler`) -/

/-- The shared normalization policy of `addTaskHandler` (lines 154-175) and
`updateTaskHandler` (lines 283-304): empty date becomes `now`; an unparseable
date is rejected; a date formatting strictly below `now`'s format is reset to
`now` (no rule) or advanced with `NextDate` (rule present); otherwise the
parsed date is kept. -/
def normalizeDate (now : GoDate) (dateStr : String) (rep : String) : Except NdErr GoDate :=
  if dateStr = "" then .ok now
  else
    match parseDate dateStr with
    | none => .error .invalidDate
    | some pd =>
      if lexLt (fmtD pd) (fmtD now) then
        if rep = "" then .ok now
        else NextDate now dateStr rep
      else .ok pd

/-- What the handlers persist: the normalized date together with the repeat
field, which the handlers never modify (`db.Exec(query, task.Date, task.Title,
task.Comment, task.Repeat)`). -/
def storeTask (now : GoDate) (dateStr rep : String) : Except NdErr (GoDate × String) :=
  (normalizeDate now dateStr rep).map (fun d => (d, rep))

/-- `NextDate` as the specification words it: identical to `NextDate` except
that the loop guards compare dates by calendar value (year, then month, then
day — equivalently the numeral `key`) instead of comparing formatted strings.
Used only to state the refinement claim. -/
def loopIterChron (step : GoDate → GoDate) (now : GoDate) : Nat → GoDate → Option GoDate
  | 0, _ => none
  | f + 1, d =>
    if key d ≤ key now then loopIterChron step now f (step d)
    else some d

/-- Modelled from the spec: `computeNext` with chronological (calendar-value)
comparison in the loop guards, the comparison §3 and §9 of the specification
prescribe; compared against `NextDate` for the refinement claim. -/
def NextDateChron (now : GoDate) (date : String) (rep : String) : Except NdErr GoDate :=
  match parseDate date with
  | none => .error .invalidDate
  | some d =>
    let l := rep.toList
    if l = [] then .error .emptyRule
    else if l = ['y'] then
      match loopIterChron addOneYear now FUEL (addOneYear d) with
      | some r => .ok r
      | none => .error .fuelOut
    else if l.take 2 = ['d', ' '] then
      match scanInt (l.drop 2) with
      | none => .error .invalidRepeat
      | some days =>
        if days ≤ 0 ∨ 400 < days then .error .invalidRepeat
        else
          match loopIterChron (addDays days.toNat) now FUEL (addDays days.toNat d) with
          | some r => .ok r
          | none => .error .fuelOut
    else if l.take 2 = ['w', ' '] then
      if weekTokensOk (l.drop 2) then
        match loopIterChron (addDays 1) now FUEL (addDays 1 d) with
        | some r => .ok r
        | none => .error .fuelOut
      else .error .invalidRepeat
    else .error .unsupportedRule

/-- Well-formedness of a rule string, as the claims use it: `"y"`, a
`"d N"` rule whose scanned count lies in 1..400, or a `"w ..."` rule whose
weekday list validates. -/
def WellFormedRule (r : String) : Prop :=
  r.toList = ['y']
  ∨ (r.toList.take 2 = ['d', ' ']
      ∧ ∃ v, scanInt (r.toList.drop 2) = some v ∧ 1 ≤ v ∧ v ≤ 400)
  ∨ (r.toList.take 2 = ['w', ' '] ∧ weekTokensOk (r.toList.drop 2) = true)

/-- Day of year (1-based): days in the preceding months plus the day. -/
def monthPrefixDays (y : Nat) : Nat → Nat
  | 0 => 0
  | m + 1 => monthPrefixDays y m + daysInMonth y (m + 1)

/-- 1-based ordinal of the day within its year. -/
def dayOfYear (dt : GoDate) : Nat :=
  monthPrefixDays dt.year (dt.month - 1) + dt.day

/-- Loop measure: strictly decreases at every guarded step while the chain
stays below year 10^8, where the exit lemma guarantees the guard has already
failed. -/
def loopMeasure (dt : GoDate) : Nat :=
  (100000000 - dt.year) * 767 + (767 - dayOfYear dt)

/-! ## Digit lists, values, and lexicographic order -/

/-- The number denoted by a big-endian digit list. -/
def listVal (l : List Nat) : Nat := l.foldl (fun a d => 10 * a + d) 0

theorem listVal_foldl (l : List Nat) :
    ∀ x, l.foldl (fun a d => 10 * a + d) x = x * 10 ^ l.length + listVal l := by
  induction l with
  | nil => intro x; simp [listVal]
  | cons c t ih =>
    intro x
    show t.foldl _ (10 * x + c) = _
    rw [ih (10 * x + c)]
    have : listVal (c :: t) = c * 10 ^ t.length + listVal t := by
      show t.foldl _ (10 * 0 + c) = _
      rw [ih (10 * 0 + c)]; ring_nf
    rw [this]
    simp [List.length_cons, pow_succ]
    ring

theorem listVal_cons (a : Nat) (l : List Nat) :
    listVal (a :: l) = a * 10 ^ l.length + listVal l := by
  show l.foldl _ (10 * 0 + a) = _
  rw [listVal_foldl]; ring_nf

theorem listVal_append (l1 l2 : List Nat) :
    listVal (l1 ++ l2) = listVal l1 * 10 ^ l2.length + listVal l2 := by
  show (l1 ++ l2).foldl _ 0 = _
  rw [List.foldl_append, listVal_foldl]
  rfl

theorem listVal_lt (l : List Nat) (h : ∀ x ∈ l, x < 10) :
    listVal l < 10 ^ l.length := by
  induction l with
  | nil => simp [listVal]
  | cons a t ih =>
    rw [listVal_cons]
    have ha : a < 10 := h a (by simp)
    have ht := ih (fun x hx => h x (by simp [hx]))
    have : a * 10 ^ t.length + listVal t < (a + 1) * 10 ^ t.length := by
      have := Nat.pos_pow_of_pos (n := 10) t.length (by norm_num)
      nlinarith
    calc a * 10 ^ t.length + listVal t < (a + 1) * 10 ^ t.length := this
      _ ≤ 10 * 10 ^ t.length := by
          have : a + 1 ≤ 10 := ha
          exact Nat.mul_le_mul_right _ this
      _ = 10 ^ (t.length + 1) := by ring
      _ = 10 ^ (a :: t).length := by simp

theorem natDigitsLen_length (k n : Nat) : (natDigitsLen k n).length = k := by
  induction k generalizing n with
  | zero => rfl
  | succ k ih => simp [natDigitsLen, ih]

theorem natDigitsLen_lt (k n : Nat) : ∀ x ∈ natDigitsLen k n, x < 10 := by
  induction k generalizing n with
  | zero => simp [natDigitsLen]
  | succ k ih =>
    intro x hx
    simp only [natDigitsLen, List.mem_cons] at hx
    rcases hx with h | h
    · rw [h]; exact Nat.mod_lt _ (by norm_num)
    · exact ih n x h

theorem natDigitsLen_val (k n : Nat) : listVal (natDigitsLen k n) = n % 10 ^ k := by
  induction k generalizing n with
  | zero => simp [natDigitsLen, listVal, Nat.mod_one]
  | succ k ih =>
    rw [natDigitsLen, listVal_cons, natDigitsLen_length, ih]
    rw [pow_succ, Nat.mod_mul]
    ring

theorem natDigitsLen_zero_eq (k : Nat) : natDigitsLen k 0 = List.replicate k 0 := by
  induction k with
  | zero => rfl
  | succ k ih => simp [natDigitsLen, ih, List.replicate_succ]

theorem natDigitsLen_split (a b n : Nat) :
    natDigitsLen (a + b) n = natDigitsLen a (n / 10 ^ b) ++ natDigitsLen b n := by
  induction a generalizing n with
  | zero => simp [natDigitsLen]
  | succ a ih =>
    have hsa : a + 1 + b = (a + b) + 1 := by omega
    rw [hsa, natDigitsLen, ih, natDigitsLen]
    have : n / 10 ^ b / 10 ^ a = n / 10 ^ (a + b) := by
      rw [Nat.div_div_eq_div_mul, ← pow_add]
      ring_nf
    rw [this]
    rfl

theorem digitsAux_eq (L : Nat) : ∀ n f, 10 ^ L ≤ n → n < 10 ^ (L + 1) → n ≤ f →
    digitsAux f n = natDigitsLen (L + 1) n := by
  induction L with
  | zero =>
    intro n f h1 h2 hf
    have h1' : 1 ≤ n := by
      calc 1 = 10 ^ 0 := by norm_num
        _ ≤ n := h1
    have h2' : n < 10 := by
      calc n < 10 ^ (0 + 1) := h2
        _ = 10 := by norm_num
    obtain ⟨f, rfl⟩ : ∃ g, f = g + 1 := ⟨f - 1, by omega⟩
    simp only [digitsAux, if_pos h2']
    have hnd : natDigitsLen 1 n = [n % 10] := by simp [natDigitsLen]
    rw [hnd, Nat.mod_eq_of_lt h2']
  | succ L ih =>
    intro n f h1 h2 hf
    have h10 : 10 ≤ n := le_trans (by
      calc 10 = 10 ^ 1 := (pow_one 10).symm
        _ ≤ 10 ^ (L + 1) := Nat.pow_le_pow_right (by norm_num) (by omega)) h1
    obtain ⟨f, rfl⟩ : ∃ g, f = g + 1 := ⟨f - 1, by omega⟩
    simp only [digitsAux, if_neg (Nat.not_lt.mpr h10)]
    have hd1 : 10 ^ L ≤ n / 10 := by
      rw [Nat.le_div_iff_mul_le (by norm_num)]
      calc 10 ^ L * 10 = 10 ^ (L + 1) := by ring
        _ ≤ n := h1
    have hd2 : n / 10 < 10 ^ (L + 1) := by
      rw [Nat.div_lt_iff_lt_mul (by norm_num)]
      calc n < 10 ^ (L + 1 + 1) := h2
        _ = 10 ^ (L + 1) * 10 := by ring
    have hdf : n / 10 ≤ f := by
      have : n / 10 < n := Nat.div_lt_self (by omega) (by norm_num)
      omega
    rw [ih (n / 10) f hd1 hd2 hdf]
    have hsplit := natDigitsLen_split (L + 1) 1 n
    rw [pow_one] at hsplit
    rw [hsplit]
    congr 1
    simp [natDigitsLen]

theorem padZeros_natDigits (w n : Nat) (h : n < 10 ^ w) :
    padZeros w (natDigits n) = natDigitsLen w n := by
  rcases Nat.eq_zero_or_pos n with hn | hn
  · subst hn
    show padZeros w (digitsAux 0 0) = _
    simp [digitsAux, padZeros, natDigitsLen_zero_eq]
  · have h1 : 10 ^ Nat.log 10 n ≤ n := Nat.pow_log_le_self 10 (by omega)
    have h2 : n < 10 ^ (Nat.log 10 n + 1) := Nat.lt_pow_succ_log_self (by norm_num) n
    have hL : Nat.log 10 n + 1 ≤ w := by
      by_contra hc
      push_neg at hc
      have : 10 ^ w ≤ 10 ^ Nat.log 10 n :=
        Nat.pow_le_pow_right (by norm_num) (by omega)
      omega
    have hdig : natDigits n = natDigitsLen (Nat.log 10 n + 1) n :=
      digitsAux_eq _ n n h1 h2 le_rfl
    rw [hdig, padZeros, natDigitsLen_length]
    have hsplit := natDigitsLen_split (w - (Nat.log 10 n + 1)) (Nat.log 10 n + 1) n
    have hw' : w - (Nat.log 10 n + 1) + (Nat.log 10 n + 1) = w := by omega
    rw [hw'] at hsplit
    rw [hsplit]
    have hzero : n / 10 ^ (Nat.log 10 n + 1) = 0 := Nat.div_eq_of_lt h2
    rw [hzero, natDigitsLen_zero_eq]

theorem lexLe_iff_le : ∀ l1 l2 : List Nat, l1.length = l2.length →
    (∀ x ∈ l1, x < 10) → (∀ x ∈ l2, x < 10) →
    (lexLe l1 l2 = true ↔ listVal l1 ≤ listVal l2)
  | [], [], _, _, _ => by simp [lexLe]
  | [], _ :: _, h, _, _ => by exact absurd h (by simp)
  | _ :: _, [], h, _, _ => by exact absurd h (by simp)
  | a :: as, b :: bs, hlen, h1, h2 => by
    have hlen' : as.length = bs.length := by simpa using hlen
    have ha : a < 10 := h1 a (by simp)
    have hb : b < 10 := h2 b (by simp)
    have hva : listVal as < 10 ^ as.length :=
      listVal_lt as (fun x hx => h1 x (by simp [hx]))
    have hvb : listVal bs < 10 ^ bs.length :=
      listVal_lt bs (fun x hx => h2 x (by simp [hx]))
    have ihab := lexLe_iff_le as bs hlen'
      (fun x hx => h1 x (by simp [hx])) (fun x hx => h2 x (by simp [hx]))
    rw [listVal_cons, listVal_cons, ← hlen']
    show (if a < b then true else if b < a then false else lexLe as bs) = true ↔ _
    rcases Nat.lt_trichotomy a b with hab | hab | hab
    · rw [if_pos hab]
      simp only [true_iff]
      have : a * 10 ^ as.length + listVal as < (a + 1) * 10 ^ as.length := by nlinarith
      have hble : (a + 1) * 10 ^ as.length ≤ b * 10 ^ as.length :=
        Nat.mul_le_mul_right _ (by omega)
      omega
    · subst hab
      rw [if_neg (lt_irrefl a), if_neg (lt_irrefl a), ihab]
      omega
    · rw [if_neg (by omega), if_pos hab]
      simp only [Bool.false_eq_true, false_iff, not_le]
      rw [← hlen'] at hvb
      have : b * 10 ^ as.length + listVal bs < (b + 1) * 10 ^ as.length := by nlinarith
      have hble : (b + 1) * 10 ^ as.length ≤ a * 10 ^ as.length :=
        Nat.mul_le_mul_right _ (by omega)
      omega

theorem lexLt_iff_lt : ∀ l1 l2 : List Nat, l1.length = l2.length →
    (∀ x ∈ l1, x < 10) → (∀ x ∈ l2, x < 10) →
    (lexLt l1 l2 = true ↔ listVal l1 < listVal l2)
  | [], [], _, _, _ => by simp [lexLt]
  | [], _ :: _, h, _, _ => by exact absurd h (by simp)
  | _ :: _, [], h, _, _ => by exact absurd h (by simp)
  | a :: as, b :: bs, hlen, h1, h2 => by
    have hlen' : as.length = bs.length := by simpa using hlen
    have ha : a < 10 := h1 a (by simp)
    have hb : b < 10 := h2 b (by simp)
    have hva : listVal as < 10 ^ as.length :=
      listVal_lt as (fun x hx => h1 x (by simp [hx]))
    have hvb : listVal bs < 10 ^ bs.length :=
      listVal_lt bs (fun x hx => h2 x (by simp [hx]))
    have ihab := lexLt_iff_lt as bs hlen'
      (fun x hx => h1 x (by simp [hx])) (fun x hx => h2 x (by simp [hx]))
    rw [listVal_cons, listVal_cons, ← hlen']
    show (if a < b then true else if b < a then false else lexLt as bs) = true ↔ _
    rcases Nat.lt_trichotomy a b with hab | hab | hab
    · rw [if_pos hab]
      simp only [true_iff]
      have : a * 10 ^ as.length + listVal as < (a + 1) * 10 ^ as.length := by nlinarith
      have hble : (a + 1) * 10 ^ as.length ≤ b * 10 ^ as.length :=
        Nat.mul_le_mul_right _ (by omega)
      omega
    · subst hab
      rw [if_neg (lt_irrefl a), if_neg (lt_irrefl a), ihab]
      omega
    · rw [if_neg (by omega), if_pos hab]
      simp only [Bool.false_eq_true, false_iff, not_lt]
      rw [← hlen'] at hvb
      have : b * 10 ^ as.length + listVal bs < (b + 1) * 10 ^ as.length := by nlinarith
      have hble : (b + 1) * 10 ^ as.length ≤ a * 10 ^ as.length :=
        Nat.mul_le_mul_right _ (by omega)
      omega

/-! ## Structure of formatted dates -/

theorem daysInMonth_le_31 (y m : Nat) : daysInMonth y m ≤ 31 := by
  unfold daysInMonth
  split_ifs <;> norm_num

theorem daysInMonth_pos (y m : Nat) : 1 ≤ daysInMonth y m := by
  unfold daysInMonth
  split_ifs <;> norm_num

theorem daysInMonth_ge_28 (y m : Nat) : 28 ≤ daysInMonth y m := by
  unfold daysInMonth
  split_ifs <;> norm_num

theorem fmtD_struct (d : GoDate) (hv : ValidDate d) (hy : d.year ≤ 9999) :
    fmtD d = natDigitsLen 4 d.year ++ natDigitsLen 2 d.month ++ natDigitsLen 2 d.day := by
  obtain ⟨hm1, hm2, hd1, hd2⟩ := hv
  have hd31 : d.day ≤ 31 := le_trans hd2 (daysInMonth_le_31 _ _)
  unfold fmtD
  rw [padZeros_natDigits 4 d.year (by norm_num; omega),
    padZeros_natDigits 2 d.month (by norm_num; omega),
    padZeros_natDigits 2 d.day (by norm_num; omega)]

theorem fmtD_length (d : GoDate) (hv : ValidDate d) (hy : d.year ≤ 9999) :
    (fmtD d).length = 8 := by
  rw [fmtD_struct d hv hy]
  simp [natDigitsLen_length]

theorem fmtD_lt10 (d : GoDate) (hv : ValidDate d) (hy : d.year ≤ 9999) :
    ∀ x ∈ fmtD d, x < 10 := by
  rw [fmtD_struct d hv hy]
  intro x hx
  simp only [List.mem_append] at hx
  rcases hx with (hx | hx) | hx
  · exact natDigitsLen_lt 4 d.year x hx
  · exact natDigitsLen_lt 2 d.month x hx
  · exact natDigitsLen_lt 2 d.day x hx

theorem fmtD_val (d : GoDate) (hv : ValidDate d) (hy : d.year ≤ 9999) :
    listVal (fmtD d) = key d := by
  obtain ⟨hm1, hm2, hd1, hd2⟩ := hv
  have hd31 : d.day ≤ 31 := le_trans hd2 (daysInMonth_le_31 _ _)
  rw [fmtD_struct d ⟨hm1, hm2, hd1, hd2⟩ hy]
  rw [listVal_append, listVal_append]
  rw [natDigitsLen_val, natDigitsLen_val, natDigitsLen_val, natDigitsLen_length,
    natDigitsLen_length]
  rw [Nat.mod_eq_of_lt (show d.year < 10 ^ 4 by norm_num; omega),
    Nat.mod_eq_of_lt (show d.month < 10 ^ 2 by norm_num; omega),
    Nat.mod_eq_of_lt (show d.day < 10 ^ 2 by norm_num; omega)]
  unfold key
  norm_num
  ring

theorem fmt_le_iff (a b : GoDate) (ha : ValidDate a) (hya : a.year ≤ 9999)
    (hb : ValidDate b) (hyb : b.year ≤ 9999) :
    (lexLe (fmtD a) (fmtD b) = true ↔ key a ≤ key b) := by
  rw [lexLe_iff_le (fmtD a) (fmtD b)
    (by rw [fmtD_length a ha hya, fmtD_length b hb hyb])
    (fmtD_lt10 a ha hya) (fmtD_lt10 b hb hyb)]
  rw [fmtD_val a ha hya, fmtD_val b hb hyb]

theorem fmt_lt_iff (a b : GoDate) (ha : ValidDate a) (hya : a.year ≤ 9999)
    (hb : ValidDate b) (hyb : b.year ≤ 9999) :
    (lexLt (fmtD a) (fmtD b) = true ↔ key a < key b) := by
  rw [lexLt_iff_lt (fmtD a) (fmtD b)
    (by rw [fmtD_length a ha hya, fmtD_length b hb hyb])
    (fmtD_lt10 a ha hya) (fmtD_lt10 b hb hyb)]
  rw [fmtD_val a ha hya, fmtD_val b hb hyb]

theorem key_inj (a b : GoDate) (ha : ValidDate a) (hb : ValidDate b)
    (h : key a = key b) : a = b := by
  obtain ⟨ham1, ham2, had1, had2⟩ := ha
  obtain ⟨hbm1, hbm2, hbd1, hbd2⟩ := hb
  have ha31 : a.day ≤ 31 := le_trans had2 (daysInMonth_le_31 _ _)
  have hb31 : b.day ≤ 31 := le_trans hbd2 (daysInMonth_le_31 _ _)
  unfold key at h
  have hy : a.year = b.year := by omega
  have hm : a.month = b.month := by omega
  have hd : a.day = b.day := by omega
  cases a; cases b
  simp_all

theorem key_lt_of_year_lt (a b : GoDate) (ha : ValidDate a) (hb : ValidDate b)
    (h : a.year < b.year) : key a < key b := by
  obtain ⟨ham1, ham2, had1, had2⟩ := ha
  obtain ⟨hbm1, hbm2, hbd1, hbd2⟩ := hb
  have ha31 : a.day ≤ 31 := le_trans had2 (daysInMonth_le_31 _ _)
  unfold key
  nlinarith

theorem year_le_of_key_le (a b : GoDate) (ha : ValidDate a) (hb : ValidDate b)
    (h : key a ≤ key b) : a.year ≤ b.year := by
  by_contra hc
  push_neg at hc
  have := key_lt_of_year_lt b a hb ha hc
  omega

/-! ## Calendar arithmetic lemmas -/

theorem daysInMonth_ne_two (y y' m : Nat) (h : m ≠ 2) :
    daysInMonth y m = daysInMonth y' m := by
  unfold daysInMonth
  rw [if_neg h, if_neg h]

theorem daysInMonth_twelve (y : Nat) : daysInMonth y 12 = 31 := by
  simp [daysInMonth]

theorem isLeap_iff (y : Nat) :
    isLeap y = true ↔ (y % 4 = 0 ∧ (y % 100 ≠ 0 ∨ y % 400 = 0)) := by
  simp [isLeap, Bool.and_eq_true, Bool.or_eq_true, decide_eq_true_eq]

@[simp] theorem goDate_mk_year (y m d : Nat) : (GoDate.mk y m d).year = y := rfl

@[simp] theorem goDate_mk_month (y m d : Nat) : (GoDate.mk y m d).month = m := rfl

@[simp] theorem goDate_mk_day (y m d : Nat) : (GoDate.mk y m d).day = d := rfl

@[simp] theorem key_mk (y m d : Nat) : key (GoDate.mk y m d) = y * 10000 + m * 100 + d := rfl

theorem isLeap_of_dim_two (y : Nat) (h : 29 ≤ daysInMonth y 2) : isLeap y = true := by
  unfold daysInMonth at h
  rw [if_pos rfl] at h
  by_contra hc
  rw [Bool.not_eq_true] at hc
  rw [hc] at h
  simp at h

theorem not_isLeap_succ (y : Nat) (h : isLeap y = true) : isLeap (y + 1) = false := by
  rw [isLeap_iff] at h
  rw [Bool.eq_false_iff, Ne, isLeap_iff]
  omega

theorem nextDay_valid (d : GoDate) (hv : ValidDate d) : ValidDate (nextDay d) := by
  obtain ⟨hm1, hm2, hd1, hd2⟩ := hv
  unfold nextDay
  split_ifs with h1 h2
  · exact ⟨hm1, hm2, by simp <;> omega, by simp <;> omega⟩
  · exact ⟨by simp <;> omega, by simp <;> omega, le_rfl, daysInMonth_pos _ _⟩
  · exact ⟨by norm_num, by norm_num, le_rfl, daysInMonth_pos _ _⟩

theorem nextDay_key_gt (d : GoDate) (hv : ValidDate d) : key d < key (nextDay d) := by
  obtain ⟨hm1, hm2, hd1, hd2⟩ := hv
  have h31 : d.day ≤ 31 := le_trans hd2 (daysInMonth_le_31 _ _)
  unfold nextDay
  split_ifs with h1 h2 <;> simp [key] <;> omega

theorem nextDay_year_le (d : GoDate) : (nextDay d).year ≤ d.year + 1 := by
  unfold nextDay
  split_ifs <;> simp

theorem nextDay_year_ge (d : GoDate) : d.year ≤ (nextDay d).year := by
  unfold nextDay
  split_ifs <;> simp

/-- `nextDay` is the immediate calendar successor: no valid date lies strictly
between a valid date and its `nextDay`. -/
theorem nextDay_succ_le (d now : GoDate) (hv : ValidDate d) (hn : ValidDate now)
    (h : key d < key now) : key (nextDay d) ≤ key now := by
  obtain ⟨hm1, hm2, hd1, hd2⟩ := hv
  obtain ⟨hnm1, hnm2, hnd1, hnd2⟩ := hn
  have h31 : d.day ≤ 31 := le_trans hd2 (daysInMonth_le_31 _ _)
  have hn31 : now.day ≤ 31 := le_trans hnd2 (daysInMonth_le_31 _ _)
  unfold key at h
  unfold nextDay
  split_ifs with h1 h2
  · simp only [key_mk, key]
    omega
  · -- month rollover: d.day = daysInMonth d.year d.month
    have hde : d.day = daysInMonth d.year d.month := by omega
    simp only [key_mk, key]
    rcases Nat.lt_trichotomy now.year d.year with hy | hy | hy
    · exfalso
      have : now.year * 10000 + now.month * 100 + now.day <
          d.year * 10000 + d.month * 100 + d.day := by nlinarith
      omega
    · rcases Nat.lt_trichotomy now.month d.month with hm | hm | hm
      · exfalso; omega
      · -- same year, same month: now.day > d.day = daysInMonth, contradiction
        exfalso
        rw [hy, hm, ← hde] at hnd2
        omega
      · omega
    · have h1' : d.year * 10000 + (d.month + 1) * 100 + 1 ≤ (d.year + 1) * 10000 := by
        omega
      have h2' : (d.year + 1) * 10000 ≤ now.year * 10000 := by
        have : d.year + 1 ≤ now.year := hy
        exact Nat.mul_le_mul_right _ this
      omega
  · -- year rollover: d.month = 12 and d.day = 31
    have hm12 : d.month = 12 := by omega
    have hdim : daysInMonth d.year d.month = 31 := by rw [hm12, daysInMonth_twelve]
    have hde : d.day = 31 := by omega
    simp only [key_mk, key]
    rcases Nat.lt_or_ge now.year (d.year + 1) with hy | hy
    · exfalso
      have hyy : now.year ≤ d.year := by omega
      have : now.year * 10000 ≤ d.year * 10000 := Nat.mul_le_mul_right _ hyy
      omega
    · have h2' : (d.year + 1) * 10000 ≤ now.year * 10000 := Nat.mul_le_mul_right _ hy
      omega

theorem addDays_succ (n : Nat) (d : GoDate) :
    addDays (n + 1) d = addDays n (nextDay d) := by
  unfold addDays
  rw [Function.iterate_succ_apply]

theorem addDays_valid (n : Nat) (d : GoDate) (hv : ValidDate d) :
    ValidDate (addDays n d) := by
  induction n generalizing d with
  | zero => exact hv
  | succ n ih => rw [addDays_succ]; exact ih _ (nextDay_valid d hv)

theorem addDays_key_ge (n : Nat) (d : GoDate) (hv : ValidDate d) :
    key d + n ≤ key (addDays n d) := by
  induction n generalizing d with
  | zero => simp [addDays]
  | succ n ih =>
    rw [addDays_succ]
    have h1 := nextDay_key_gt d hv
    have h2 := ih (nextDay d) (nextDay_valid d hv)
    omega

theorem addDays_key_gt (n : Nat) (d : GoDate) (hv : ValidDate d) (hn : 1 ≤ n) :
    key d < key (addDays n d) := by
  have := addDays_key_ge n d hv
  omega

theorem addDays_year_le (n : Nat) (d : GoDate) : (addDays n d).year ≤ d.year + n := by
  induction n generalizing d with
  | zero => simp [addDays]
  | succ n ih =>
    rw [addDays_succ]
    have h1 := nextDay_year_le d
    have h2 := ih (nextDay d)
    omega

theorem addDays_year_ge (n : Nat) (d : GoDate) : d.year ≤ (addDays n d).year := by
  induction n generalizing d with
  | zero => simp [addDays]
  | succ n ih =>
    rw [addDays_succ]
    have h1 := nextDay_year_ge d
    have h2 := ih (nextDay d)
    omega

theorem addOneYear_year (d : GoDate) : (addOneYear d).year = d.year + 1 := by
  unfold addOneYear
  split_ifs <;> simp

/-- On a valid date, `addOneYear` keeps month and day unless they are Feb 29,
which becomes Mar 1 of the (necessarily non-leap) next year. -/
theorem addOneYear_cases (d : GoDate) (hv : ValidDate d) :
    (¬(d.month = 2 ∧ d.day = 29) ∧ addOneYear d = ⟨d.year + 1, d.month, d.day⟩)
    ∨ ((d.month = 2 ∧ d.day = 29) ∧ addOneYear d = ⟨d.year + 1, 3, 1⟩) := by
  obtain ⟨hm1, hm2, hd1, hd2⟩ := hv
  by_cases hf : d.month = 2 ∧ d.day = 29
  · right
    refine ⟨hf, ?_⟩
    obtain ⟨hf2, hf29⟩ := hf
    have hleap : isLeap d.year = true := by
      apply isLeap_of_dim_two
      rw [← hf2]
      omega
    have hnl : isLeap (d.year + 1) = false := not_isLeap_succ _ hleap
    have hdim : daysInMonth (d.year + 1) d.month = 28 := by
      rw [hf2]
      unfold daysInMonth
      rw [if_pos rfl, hnl]
      simp
    unfold addOneYear
    rw [if_neg (by omega)]
    rw [hdim, hf2, hf29]
  · left
    refine ⟨hf, ?_⟩
    unfold addOneYear
    rw [if_pos]
    by_cases h2 : d.month = 2
    · have hd28 : d.day ≤ 28 := by
        have : d.day ≠ 29 := by tauto
        unfold daysInMonth at hd2
        rw [if_pos h2] at hd2
        rcases hl : isLeap d.year with _ | _ <;> rw [hl] at hd2 <;> simp at hd2 <;> omega
      calc d.day ≤ 28 := hd28
        _ ≤ daysInMonth (d.year + 1) d.month := daysInMonth_ge_28 _ _
    · rw [daysInMonth_ne_two (d.year + 1) d.year d.month h2]
      exact hd2

theorem addOneYear_valid (d : GoDate) (hv : ValidDate d) : ValidDate (addOneYear d) := by
  rcases addOneYear_cases d hv with ⟨hnf, heq⟩ | ⟨⟨hm2, hd29⟩, heq⟩
  · obtain ⟨hm1, hm2, hd1, hd2⟩ := hv
    rw [heq]
    refine ⟨by simp <;> omega, by simp <;> omega, by simp <;> omega, ?_⟩
    simp only [goDate_mk_year, goDate_mk_month, goDate_mk_day]
    -- day bound: the branch taken in addOneYear guarantees it
    by_cases h2 : d.month = 2
    · have : ¬ d.day = 29 := by tauto
      unfold daysInMonth at hd2 ⊢
      rw [if_pos h2] at hd2 ⊢
      rcases hl : isLeap d.year with _ | _ <;> rw [hl] at hd2 <;>
        rcases hl2 : isLeap (d.year + 1) with _ | _ <;> simp at hd2 ⊢ <;> omega
    · rw [daysInMonth_ne_two (d.year + 1) d.year d.month h2]
      exact hd2
  · rw [heq]
    exact ⟨by norm_num, by norm_num, by norm_num, le_trans (by norm_num) (daysInMonth_ge_28 _ _)⟩

theorem addOneYear_key_gt (d : GoDate) (hv : ValidDate d) : key d < key (addOneYear d) := by
  apply key_lt_of_year_lt d (addOneYear d) hv (addOneYear_valid d hv)
  rw [addOneYear_year]
  omega

/-- The result of `addOneYear` on a valid date is never Feb 29 (so stepping it
again just increments the year). -/
theorem addOneYear_not_feb29 (d : GoDate) (hv : ValidDate d) :
    ¬((addOneYear d).month = 2 ∧ (addOneYear d).day = 29) := by
  rcases addOneYear_cases d hv with ⟨hnf, heq⟩ | ⟨⟨hm2, hd29⟩, heq⟩
  · rw [heq]
    simp only [goDate_mk_month, goDate_mk_day]
    intro ⟨h2, h29⟩
    -- then Feb 29 is valid in both year and year+1: impossible
    obtain ⟨hm1, hm2', hd1, hd2⟩ := hv
    rw [h2, h29] at hd2
    -- d.day ≤ daysInMonth d.year 2 means leap year
    have hleap : isLeap d.year = true := isLeap_of_dim_two d.year (by omega)
    -- but the addOneYear branch needs 29 ≤ daysInMonth (d.year+1) 2
    have hbr : d.day ≤ daysInMonth (d.year + 1) d.month := by
      by_contra hc
      unfold addOneYear at heq
      rw [if_neg hc] at heq
      have := congrArg GoDate.month heq
      simp at this
    rw [h2, h29] at hbr
    have hleap2 : isLeap (d.year + 1) = true := isLeap_of_dim_two _ (by omega)
    rw [not_isLeap_succ d.year hleap] at hleap2
    exact Bool.false_ne_true hleap2
  · rw [heq]
    simp

theorem subOneYear_addOneYear (d : GoDate) (hv : ValidDate d)
    (hnf : ¬(d.month = 2 ∧ d.day = 29)) : subOneYear (addOneYear d) = d := by
  rcases addOneYear_cases d hv with ⟨_, heq⟩ | ⟨hf, _⟩
  · rw [heq]
    unfold subOneYear
    obtain ⟨hm1, hm2, hd1, hd2⟩ := hv
    simp only [goDate_mk_year, goDate_mk_month, goDate_mk_day]
    rw [if_pos (by simp; omega)]
    simp
  · exact absurd hf.1 (by tauto)

/-! ## Day-of-year and the loop measure -/

theorem monthPrefixDays_le (y m : Nat) : monthPrefixDays y m ≤ 31 * m := by
  induction m with
  | zero => simp [monthPrefixDays]
  | succ m ih =>
    unfold monthPrefixDays
    have := daysInMonth_le_31 y (m + 1)
    omega

theorem dayOfYear_le (d : GoDate) (hv : ValidDate d) : dayOfYear d ≤ 372 := by
  obtain ⟨hm1, hm2, hd1, hd2⟩ := hv
  unfold dayOfYear
  have h1 : monthPrefixDays d.year (d.month - 1) ≤ 31 * 11 := by
    calc monthPrefixDays d.year (d.month - 1) ≤ 31 * (d.month - 1) :=
        monthPrefixDays_le _ _
      _ ≤ 31 * 11 := by
        apply Nat.mul_le_mul_left
        omega
  have h2 : d.day ≤ 31 := le_trans hd2 (daysInMonth_le_31 _ _)
  omega

theorem dayOfYear_pos (d : GoDate) (hv : ValidDate d) : 1 ≤ dayOfYear d := by
  unfold dayOfYear
  have := hv.2.2.1
  omega

theorem monthPrefixDays_succ (y m : Nat) (hm : 1 ≤ m) :
    monthPrefixDays y m = monthPrefixDays y (m - 1) + daysInMonth y m := by
  obtain ⟨m, rfl⟩ : ∃ k, m = k + 1 := ⟨m - 1, by omega⟩
  simp [monthPrefixDays]

/-- A `nextDay` step either stays in the year advancing the ordinal by one, or
is the Dec 31 → Jan 1 rollover. -/
theorem nextDay_doy (d : GoDate) (hv : ValidDate d) :
    ((nextDay d).year = d.year ∧ dayOfYear (nextDay d) = dayOfYear d + 1)
    ∨ (nextDay d = ⟨d.year + 1, 1, 1⟩ ∧ d.month = 12 ∧ d.day = daysInMonth d.year 12) := by
  obtain ⟨hm1, hm2, hd1, hd2⟩ := hv
  unfold nextDay
  split_ifs with h1 h2
  · left
    constructor
    · simp
    · unfold dayOfYear
      simp
      omega
  · left
    constructor
    · simp
    · unfold dayOfYear
      simp only [goDate_mk_year, goDate_mk_month, goDate_mk_day]
      have hds : d.day = daysInMonth d.year d.month := by omega
      have : d.month + 1 - 1 = (d.month - 1) + 1 := by omega
      rw [this, monthPrefixDays_succ d.year ((d.month - 1) + 1) (by omega)]
      have hmm : (d.month - 1) + 1 = d.month := by omega
      rw [hmm]
      omega
  · right
    have hm12 : d.month = 12 := by omega
    refine ⟨rfl, hm12, ?_⟩
    rw [← hm12]
    omega

theorem loopMeasure_nextDay (d : GoDate) (hv : ValidDate d)
    (hy : d.year < 100000000) : loopMeasure (nextDay d) < loopMeasure d := by
  have hdoy := dayOfYear_le d hv
  have hdoyp := dayOfYear_pos d hv
  rcases nextDay_doy d hv with ⟨hyr, hstep⟩ | ⟨heq, hm12, hd31⟩
  · unfold loopMeasure
    rw [hyr, hstep]
    omega
  · unfold loopMeasure
    rw [heq]
    have hdoy1 : dayOfYear ⟨d.year + 1, 1, 1⟩ = 1 := by
      unfold dayOfYear
      simp [monthPrefixDays]
    rw [hdoy1]
    simp only [goDate_mk_year]
    omega

theorem loopMeasure_addDays (n : Nat) (d : GoDate) (hv : ValidDate d)
    (hy : d.year + n ≤ 100000000) (hn : 1 ≤ n) :
    loopMeasure (addDays n d) < loopMeasure d := by
  induction n generalizing d with
  | zero => omega
  | succ n ih =>
    rw [addDays_succ]
    rcases Nat.eq_zero_or_pos n with hz | hz
    · subst hz
      show loopMeasure (addDays 0 (nextDay d)) < _
      unfold addDays
      simp only [Function.iterate_zero, id]
      exact loopMeasure_nextDay d hv (by omega)
    · have h1 := loopMeasure_nextDay d hv (by omega)
      have h2 := ih (nextDay d) (nextDay_valid d hv)
        (by have := nextDay_year_le d; omega) hz
      omega

theorem loopMeasure_addOneYear (d : GoDate) (hv : ValidDate d)
    (hy : d.year < 100000000) : loopMeasure (addOneYear d) < loopMeasure d := by
  have hdoy := dayOfYear_le d hv
  have hdoyp := dayOfYear_pos d hv
  have hdoy2 := dayOfYear_le (addOneYear d) (addOneYear_valid d hv)
  have hdoyp2 := dayOfYear_pos (addOneYear d) (addOneYear_valid d hv)
  unfold loopMeasure
  rw [addOneYear_year]
  omega

theorem monthPrefixDays_eleven (y : Nat) :
    monthPrefixDays y 11 = if isLeap y then 335 else 334 := by
  rcases hl : isLeap y with _ | _ <;> simp [monthPrefixDays, daysInMonth, hl]

/-- Over `k` day-steps the year grows at most by `(dayOfYear + k) / 365`:
a year boundary is crossed only every 365+ days. -/
theorem year_iterate_le (k : Nat) : ∀ d, ValidDate d →
    (nextDay^[k] d).year ≤ d.year + (dayOfYear d + k) / 365 := by
  induction k with
  | zero => intro d _; simp
  | succ k ih =>
    intro d hv
    rw [Function.iterate_succ_apply]
    have hnv := nextDay_valid d hv
    have hih := ih (nextDay d) hnv
    rcases nextDay_doy d hv with ⟨hyr, hstep⟩ | ⟨heq, hm12, hd31⟩
    · rw [hyr, hstep] at hih
      have harg : dayOfYear d + 1 + k = dayOfYear d + (k + 1) := by ring
      rw [harg] at hih
      exact hih
    · -- rollover: dayOfYear d ≥ 365
      have hdoy : 365 ≤ dayOfYear d := by
        unfold dayOfYear
        rw [hm12]
        rw [show (12 : Nat) - 1 = 11 from rfl]
        have h11 := monthPrefixDays_eleven d.year
        rw [daysInMonth_twelve] at hd31
        rcases hl : isLeap d.year with _ | _ <;> rw [hl] at h11 <;> simp at h11 <;> omega
      rw [heq] at hih ⊢
      have hdoy1 : dayOfYear ⟨d.year + 1, 1, 1⟩ = 1 := by
        unfold dayOfYear
        simp [monthPrefixDays]
      rw [hdoy1] at hih
      simp only [goDate_mk_year] at hih
      calc (nextDay^[k] (⟨d.year + 1, 1, 1⟩ : GoDate)).year
          ≤ d.year + 1 + (1 + k) / 365 := hih
        _ ≤ d.year + (dayOfYear d + (k + 1)) / 365 := by
            have h365 : dayOfYear d + (k + 1) = (1 + k) + dayOfYear d := by ring
            rw [h365]
            have : (1 + k) + dayOfYear d ≥ (1 + k) + 365 := by omega
            have hd2 : ((1 + k) + 365) / 365 = (1 + k) / 365 + 1 := by
              rw [Nat.add_div_right _ (by norm_num)]
            have hmono : ((1 + k) + 365) / 365 ≤ ((1 + k) + dayOfYear d) / 365 :=
              Nat.div_le_div_right (by omega)
            omega

/-- At most two year boundaries can be crossed by one `AddDate(0,0,days)` step
with `days ≤ 400`. -/
theorem addDays_year_le_two (n : Nat) (d : GoDate) (hv : ValidDate d) (hn : n ≤ 400) :
    (addDays n d).year ≤ d.year + 2 := by
  have h1 := year_iterate_le n d hv
  have h2 := dayOfYear_le d hv
  have h3 : (dayOfYear d + n) / 365 ≤ (372 + 400) / 365 :=
    Nat.div_le_div_right (by omega)
  norm_num at h3
  unfold addDays at *
  omega

theorem padZeros_of_long (w : Nat) (l : List Nat) (h : w ≤ l.length) :
    padZeros w l = l := by
  unfold padZeros
  rw [Nat.sub_eq_zero_of_le h]
  simp

/-- Fully explicit digit list of the canonical form of a valid date with a
four-digit year. -/
theorem fmtD_cons (d : GoDate) (hv : ValidDate d) (hy : d.year ≤ 9999) :
    fmtD d = [d.year / 1000 % 10, d.year / 100 % 10, d.year / 10 % 10, d.year % 10,
      d.month / 10 % 10, d.month % 10, d.day / 10 % 10, d.day % 10] := by
  rw [fmtD_struct d hv hy]
  show natDigitsLen (3+1) d.year ++ natDigitsLen (1+1) d.month ++ natDigitsLen (1+1) d.day = _
  simp only [natDigitsLen]
  norm_num

theorem lexLe_head9 (a : Nat) (l l' : List Nat) (ha : a ≤ 9) :
    lexLe (9 :: l) (a :: l') = if a = 9 then lexLe l l' else false := by
  show (if 9 < a then true else if a < 9 then false else lexLe l l') = _
  rcases Nat.lt_or_ge a 9 with h | h
  · rw [if_neg (by omega), if_pos h, if_neg (by omega)]
  · have h9 : a = 9 := by omega
    subst h9
    rw [if_neg (by omega), if_neg (by omega), if_pos rfl]

theorem lexLe_nines (a b c d e : Nat) (l l' : List Nat)
    (ha : a ≤ 9) (hb : b ≤ 9) (hc : c ≤ 9) (hd : d ≤ 9) (he : e ≤ 1) :
    lexLe (9 :: 9 :: 9 :: 9 :: 9 :: l) (a :: b :: c :: d :: e :: l') = false := by
  rw [lexLe_head9 _ _ _ ha]
  split_ifs with h1
  · rw [lexLe_head9 _ _ _ hb]
    split_ifs with h2
    · rw [lexLe_head9 _ _ _ hc]
      split_ifs with h3
      · rw [lexLe_head9 _ _ _ hd]
        split_ifs with h4
        · rw [lexLe_head9 _ _ _ (by omega : e ≤ 9)]
          rw [if_neg (by omega)]
        · rfl
      · rfl
    · rfl
  · rfl

/-- Exit window: once the chain's year has eight digits all of whose first five
are 9, its formatted form is lexicographically above any formatted valid date
with a four-digit year, so the loop guard fails. -/
theorem guard_false_window (d now : GoDate) (hd : ValidDate d) (hnow : ValidDate now)
    (hy : now.year ≤ 9999) (h1 : 99999000 ≤ d.year) (h2 : d.year ≤ 99999999) :
    lexLe (fmtD d) (fmtD now) = false := by
  -- decompose the formatted d
  have hdig : natDigits d.year = natDigitsLen 8 d.year := by
    have := digitsAux_eq 7 d.year d.year (by norm_num; omega) (by norm_num; omega) le_rfl
    exact this
  have hlen8 : (natDigits d.year).length = 8 := by
    rw [hdig, natDigitsLen_length]
  have hfd : fmtD d = natDigitsLen 8 d.year ++ padZeros 2 (natDigits d.month)
      ++ padZeros 2 (natDigits d.day) := by
    unfold fmtD
    rw [padZeros_of_long 4 _ (by rw [hlen8]; norm_num), hdig]
  have hsplit : natDigitsLen 8 d.year =
      natDigitsLen 5 (d.year / 10 ^ 3) ++ natDigitsLen 3 d.year := natDigitsLen_split 5 3 d.year
  have hq : d.year / 10 ^ 3 = 99999 := by norm_num; omega
  have h99 : natDigitsLen 5 (99999 : Nat) = [9, 9, 9, 9, 9] := by decide
  rw [hq, h99] at hsplit
  rw [hfd, hsplit]
  -- decompose the formatted now
  rw [fmtD_cons now hnow hy]
  obtain ⟨hnm1, hnm2, hnd1, hnd2⟩ := hnow
  show lexLe (9 :: 9 :: 9 :: 9 :: 9 :: (natDigitsLen 3 d.year ++ _ ++ _)) _ = false
  have hmod : ∀ x : Nat, x % 10 ≤ 9 := fun x => by omega
  apply lexLe_nines
  · exact hmod _
  · exact hmod _
  · exact hmod _
  · exact hmod _
  · have : now.month / 10 ≤ 1 := by omega
    omega

/-- A failed loop guard means the candidate is chronologically past `now`. -/
theorem key_gt_of_guard_false (d now : GoDate) (hd : ValidDate d) (hnow : ValidDate now)
    (hy : now.year ≤ 9999) (h : lexLe (fmtD d) (fmtD now) = false) : key now < key d := by
  rcases le_or_lt d.year 9999 with hdy | hdy
  · have hiff := fmt_le_iff d now hd hdy hnow hy
    rw [h] at hiff
    have : ¬ key d ≤ key now := by
      intro hc
      exact absurd (hiff.mpr hc) (by simp)
    omega
  · exact key_lt_of_year_lt now d hnow hd (by omega)

/-! ## The advancement loop -/

theorem loopIter_guard_false (step : GoDate → GoDate) (now : GoDate) :
    ∀ f d r, loopIter step now f d = some r → lexLe (fmtD r) (fmtD now) = false := by
  intro f
  induction f with
  | zero => intro d r h; exact absurd h (by simp [loopIter])
  | succ f ih =>
    intro d r h
    by_cases hg : lexLe (fmtD d) (fmtD now) = true
    · rw [loopIter, if_pos hg] at h
      exact ih _ _ h
    · rw [loopIter, if_neg hg] at h
      have := Option.some.inj h
      subst this
      exact Bool.eq_false_iff.mpr hg

/-- Everything the loop can return: it preserves any guard-stable invariant,
returns a value reachable by iterating the step, and unless it returns its
input unstepped, the result is the step of a state that satisfied the guard. -/
theorem loopIter_spec (step : GoDate → GoDate) (now : GoDate) (I : GoDate → Prop)
    (hstep : ∀ d, I d → lexLe (fmtD d) (fmtD now) = true → I (step d)) :
    ∀ f d r, I d → loopIter step now f d = some r →
      I r ∧ (∃ k, r = step^[k] d)
        ∧ (r = d ∨ ∃ p, I p ∧ lexLe (fmtD p) (fmtD now) = true ∧ r = step p) := by
  intro f
  induction f with
  | zero => intro d r _ h; exact absurd h (by simp [loopIter])
  | succ f ih =>
    intro d r hI h
    by_cases hg : lexLe (fmtD d) (fmtD now) = true
    · rw [loopIter, if_pos hg] at h
      obtain ⟨hIr, ⟨k, hk⟩, hlast⟩ := ih (step d) r (hstep d hI hg) h
      refine ⟨hIr, ⟨k + 1, ?_⟩, ?_⟩
      · rw [hk, ← Function.iterate_succ_apply]
      · rcases hlast with rfl | ⟨p, hp⟩
        · exact Or.inr ⟨d, hI, hg, rfl⟩
        · exact Or.inr ⟨p, hp⟩
    · rw [loopIter, if_neg hg] at h
      have := Option.some.inj h
      subst this
      exact ⟨hI, ⟨0, rfl⟩, Or.inl rfl⟩

/-- Termination: with fuel exceeding the measure, the loop exits. -/
theorem loopIter_term (step : GoDate → GoDate) (now : GoDate)
    (hnv : ValidDate now) (hny : now.year ≤ 9999)
    (hpres : ∀ d, ValidDate d → ValidDate (step d))
    (hdec : ∀ d, ValidDate d → d.year < 99999000 → loopMeasure (step d) < loopMeasure d)
    (hyearstep : ∀ d, ValidDate d → (step d).year ≤ d.year + 400) :
    ∀ f d, ValidDate d → d.year ≤ 99999400 → loopMeasure d < f →
      ∃ r, loopIter step now f d = some r := by
  intro f
  induction f with
  | zero => intro d _ _ h; omega
  | succ f ih =>
    intro d hv hyd hm
    by_cases hg : lexLe (fmtD d) (fmtD now) = true
    · have hwin : d.year < 99999000 := by
        by_contra hc
        push_neg at hc
        have := guard_false_window d now hv hnv hny hc (by omega)
        rw [hg] at this
        exact Bool.noConfusion this
      have hv' := hpres d hv
      have hy' : (step d).year ≤ 99999400 := by
        have := hyearstep d hv
        omega
      have hm' : loopMeasure (step d) < f := by
        have := hdec d hv hwin
        omega
      obtain ⟨r, hr⟩ := ih (step d) hv' hy' hm'
      exact ⟨r, by rw [loopIter, if_pos hg]; exact hr⟩
    · exact ⟨d, by rw [loopIter, if_neg hg]⟩

theorem loopMeasure_lt_FUEL (d : GoDate) : loopMeasure d < FUEL := by
  unfold loopMeasure FUEL
  have h1 : 100000000 - d.year ≤ 100000000 := by omega
  have h2 : (100000000 - d.year) * 767 ≤ 100000000 * 767 :=
    Nat.mul_le_mul_right _ h1
  omega

/-- Master lemma for every loop `NextDate` runs: the loop exits with a valid
date strictly past `now` chronologically. -/
theorem loop_master (step : GoDate → GoDate) (now : GoDate)
    (hnv : ValidDate now) (hny : now.year ≤ 9999)
    (hpres : ∀ d, ValidDate d → ValidDate (step d))
    (hdec : ∀ d, ValidDate d → d.year < 99999000 → loopMeasure (step d) < loopMeasure d)
    (hyearstep : ∀ d, ValidDate d → (step d).year ≤ d.year + 400)
    (d0 : GoDate) (hd0 : ValidDate d0) (hy0 : d0.year ≤ 99999400) :
    ∃ r, loopIter step now FUEL d0 = some r ∧ ValidDate r
      ∧ lexLe (fmtD r) (fmtD now) = false ∧ key now < key r := by
  obtain ⟨r, hr⟩ := loopIter_term step now hnv hny hpres hdec hyearstep FUEL d0 hd0 hy0
    (loopMeasure_lt_FUEL d0)
  have hval := (loopIter_spec step now ValidDate (fun d hd _ => hpres d hd) FUEL d0 r hd0 hr).1
  have hguard := loopIter_guard_false step now FUEL d0 r hr
  exact ⟨r, hr, hval, hguard, key_gt_of_guard_false r now hval hnv hny hguard⟩

/-- The step properties hold for the yearly step. -/
theorem step_props_year :
    (∀ d, ValidDate d → ValidDate (addOneYear d))
    ∧ (∀ d, ValidDate d → d.year < 99999000 → loopMeasure (addOneYear d) < loopMeasure d)
    ∧ (∀ d, ValidDate d → (addOneYear d).year ≤ d.year + 400) := by
  refine ⟨addOneYear_valid, ?_, ?_⟩
  · intro d hv hy
    exact loopMeasure_addOneYear d hv (by omega)
  · intro d _
    rw [addOneYear_year]
    omega

/-- The step properties hold for the `n`-day step, `1 ≤ n ≤ 400`. -/
theorem step_props_days (n : Nat) (hn1 : 1 ≤ n) (hn2 : n ≤ 400) :
    (∀ d, ValidDate d → ValidDate (addDays n d))
    ∧ (∀ d, ValidDate d → d.year < 99999000 → loopMeasure (addDays n d) < loopMeasure d)
    ∧ (∀ d, ValidDate d → (addDays n d).year ≤ d.year + 400) := by
  refine ⟨fun d hd => addDays_valid n d hd, ?_, ?_⟩
  · intro d hv hy
    exact loopMeasure_addDays n d hv (by omega) hn1
  · intro d _
    have := addDays_year_le n d
    omega

/-! ## Branch selection of `NextDate` -/

theorem NextDate_none (now : GoDate) (ancS rule : String)
    (h : parseDate ancS = none) : NextDate now ancS rule = .error .invalidDate := by
  unfold NextDate
  rw [h]

theorem NextDate_empty (now anc : GoDate) (ancS rule : String)
    (h : parseDate ancS = some anc) (hl : rule.toList = []) :
    NextDate now ancS rule = .error .emptyRule := by
  unfold NextDate
  rw [h]
  show (if rule.toList = [] then _ else _) = _
  rw [if_pos hl]

theorem NextDate_y (now anc : GoDate) (ancS rule : String)
    (h : parseDate ancS = some anc) (hl : rule.toList = ['y']) :
    NextDate now ancS rule =
      (match loopIter addOneYear now FUEL (addOneYear anc) with
        | some r => .ok r
        | none => .error .fuelOut) := by
  unfold NextDate
  rw [h]
  show (if rule.toList = [] then _ else _) = _
  rw [if_neg (by rw [hl]; simp), if_pos hl]

theorem NextDate_d (now anc : GoDate) (ancS rule : String)
    (h : parseDate ancS = some anc) (hl : rule.toList.take 2 = ['d', ' ']) :
    NextDate now ancS rule =
      (match scanInt (rule.toList.drop 2) with
        | none => .error .invalidRepeat
        | some days =>
          if days ≤ 0 ∨ 400 < days then .error .invalidRepeat
          else
            match loopIter (addDays days.toNat) now FUEL (addDays days.toNat anc) with
            | some r => .ok r
            | none => .error .fuelOut) := by
  have h0 : rule.toList ≠ [] := by
    intro hc; rw [hc] at hl; simp at hl
  have h1 : rule.toList ≠ ['y'] := by
    intro hc; rw [hc] at hl; simp at hl
  unfold NextDate
  rw [h]
  show (if rule.toList = [] then _ else _) = _
  rw [if_neg h0, if_neg h1, if_pos hl]

theorem NextDate_w (now anc : GoDate) (ancS rule : String)
    (h : parseDate ancS = some anc) (hl : rule.toList.take 2 = ['w', ' ']) :
    NextDate now ancS rule =
      (if weekTokensOk (rule.toList.drop 2) then
        match loopIter (addDays 1) now FUEL (addDays 1 anc) with
        | some r => .ok r
        | none => .error .fuelOut
      else .error .invalidRepeat) := by
  have h0 : rule.toList ≠ [] := by
    intro hc; rw [hc] at hl; simp at hl
  have h1 : rule.toList ≠ ['y'] := by
    intro hc; rw [hc] at hl; simp at hl
  have h2 : ¬ rule.toList.take 2 = ['d', ' '] := by
    rw [hl]; simp
  unfold NextDate
  rw [h]
  show (if rule.toList = [] then _ else _) = _
  rw [if_neg h0, if_neg h1, if_neg h2, if_pos hl]

theorem NextDate_other (now anc : GoDate) (ancS rule : String)
    (h : parseDate ancS = some anc) (h0 : rule.toList ≠ []) (h1 : rule.toList ≠ ['y'])
    (h2 : rule.toList.take 2 ≠ ['d', ' ']) (h3 : rule.toList.take 2 ≠ ['w', ' ']) :
    NextDate now ancS rule = .error .unsupportedRule := by
  unfold NextDate
  rw [h]
  show (if rule.toList = [] then _ else _) = _
  rw [if_neg h0, if_neg h1, if_neg h2, if_neg h3]

theorem NextDateChron_y (now anc : GoDate) (ancS rule : String)
    (h : parseDate ancS = some anc) (hl : rule.toList = ['y']) :
    NextDateChron now ancS rule =
      (match loopIterChron addOneYear now FUEL (addOneYear anc) with
        | some r => .ok r
        | none => .error .fuelOut) := by
  unfold NextDateChron
  rw [h]
  show (if rule.toList = [] then _ else _) = _
  rw [if_neg (by rw [hl]; simp), if_pos hl]

theorem NextDateChron_d (now anc : GoDate) (ancS rule : String)
    (h : parseDate ancS = some anc) (hl : rule.toList.take 2 = ['d', ' ']) :
    NextDateChron now ancS rule =
      (match scanInt (rule.toList.drop 2) with
        | none => .error .invalidRepeat
        | some days =>
          if days ≤ 0 ∨ 400 < days then .error .invalidRepeat
          else
            match loopIterChron (addDays days.toNat) now FUEL (addDays days.toNat anc) with
            | some r => .ok r
            | none => .error .fuelOut) := by
  have h0 : rule.toList ≠ [] := by
    intro hc; rw [hc] at hl; simp at hl
  have h1 : rule.toList ≠ ['y'] := by
    intro hc; rw [hc] at hl; simp at hl
  unfold NextDateChron
  rw [h]
  show (if rule.toList = [] then _ else _) = _
  rw [if_neg h0, if_neg h1, if_pos hl]

theorem NextDateChron_w (now anc : GoDate) (ancS rule : String)
    (h : parseDate ancS = some anc) (hl : rule.toList.take 2 = ['w', ' ']) :
    NextDateChron now ancS rule =
      (if weekTokensOk (rule.toList.drop 2) then
        match loopIterChron (addDays 1) now FUEL (addDays 1 anc) with
        | some r => .ok r
        | none => .error .fuelOut
      else .error .invalidRepeat) := by
  have h0 : rule.toList ≠ [] := by
    intro hc; rw [hc] at hl; simp at hl
  have h1 : rule.toList ≠ ['y'] := by
    intro hc; rw [hc] at hl; simp at hl
  have h2 : ¬ rule.toList.take 2 = ['d', ' '] := by
    rw [hl]; simp
  unfold NextDateChron
  rw [h]
  show (if rule.toList = [] then _ else _) = _
  rw [if_neg h0, if_neg h1, if_neg h2, if_pos hl]

/-! ## Parsing lemmas -/

theorem char_digit_bounds (c : Char) (h : c.isDigit = true) :
    48 ≤ c.toNat ∧ c.toNat ≤ 57 := by
  unfold Char.isDigit at h
  rw [Bool.and_eq_true] at h
  obtain ⟨h1, h2⟩ := h
  rw [decide_eq_true_eq] at h1 h2
  exact ⟨h1, h2⟩

theorem parseDate_valid (s : String) (d : GoDate) (h : parseDate s = some d) :
    ValidDate d ∧ d.year ≤ 9999 := by
  unfold parseDate at h
  split at h
  · rename_i c0 c1 c2 c3 c4 c5 c6 c7 hX
    split_ifs at h with hdig hval
    simp only [Bool.and_eq_true] at hdig
    obtain ⟨⟨⟨⟨⟨⟨⟨h0, h1⟩, h2⟩, h3⟩, h4⟩, h5⟩, h6⟩, h7⟩ := hdig
    have b0 := char_digit_bounds c0 h0
    have b1 := char_digit_bounds c1 h1
    have b2 := char_digit_bounds c2 h2
    have b3 := char_digit_bounds c3 h3
    have hd := Option.some.inj h
    subst hd
    refine ⟨⟨hval.1, hval.2.1, hval.2.2.1, hval.2.2.2⟩, ?_⟩
    show ((charVal c0 * 10 + charVal c1) * 10 + charVal c2) * 10 + charVal c3 ≤ 9999
    unfold charVal
    omega
  · exact absurd h (by simp)

theorem digitChar_spec (e : Nat) (he : e ≤ 9) :
    (Char.ofNat (48 + e)).isDigit = true ∧ charVal (Char.ofNat (48 + e)) = e := by
  interval_cases e <;> exact ⟨by decide, by decide⟩

theorem parseDate_eq_none_of_len (s : String) (h : s.toList.length ≠ 8) :
    parseDate s = none := by
  unfold parseDate
  generalize hl : s.toList = l at *
  rcases l with _ | ⟨a0, _ | ⟨a1, _ | ⟨a2, _ | ⟨a3, _ | ⟨a4, _ | ⟨a5, _ | ⟨a6, _ | ⟨a7, _ | ⟨a8, t⟩⟩⟩⟩⟩⟩⟩⟩⟩ <;>
    first
      | rfl
      | (exfalso; simp at h)

theorem parse_format (d : GoDate) (hv : ValidDate d) (hy : d.year ≤ 9999) :
    parseDate (formatStr d) = some d := by
  obtain ⟨hm1, hm2, hd1, hd2⟩ := hv
  have hd31 : d.day ≤ 31 := le_trans hd2 (daysInMonth_le_31 _ _)
  have hdg : ∀ e : Nat, e ≤ 9 → (Char.ofNat (48 + e)).isDigit = true :=
    fun e he => (digitChar_spec e he).1
  have hcv : ∀ e : Nat, e ≤ 9 → charVal (Char.ofNat (48 + e)) = e :=
    fun e he => (digitChar_spec e he).2
  unfold formatStr
  rw [fmtD_cons d ⟨hm1, hm2, hd1, hd2⟩ hy]
  simp only [List.map_cons, List.map_nil]
  unfold parseDate
  show (if _ = true then _ else _) = _
  rw [if_pos (by
    simp only [Bool.and_eq_true]
    refine ⟨⟨⟨⟨⟨⟨⟨?_, ?_⟩, ?_⟩, ?_⟩, ?_⟩, ?_⟩, ?_⟩, ?_⟩ <;> exact hdg _ (by omega))]
  rw [hcv (d.year / 1000 % 10) (by omega), hcv (d.year / 100 % 10) (by omega),
    hcv (d.year / 10 % 10) (by omega), hcv (d.year % 10) (by omega),
    hcv (d.month / 10 % 10) (by omega), hcv (d.month % 10) (by omega),
    hcv (d.day / 10 % 10) (by omega), hcv (d.day % 10) (by omega)]
  have hyr : ((d.year / 1000 % 10 * 10 + d.year / 100 % 10) * 10 + d.year / 10 % 10) * 10
      + d.year % 10 = d.year := by omega
  have hmr : d.month / 10 % 10 * 10 + d.month % 10 = d.month := by omega
  have hdr : d.day / 10 % 10 * 10 + d.day % 10 = d.day := by omega
  rw [hyr, hmr, hdr]
  rw [if_pos ⟨hm1, hm2, hd1, hd2⟩]

/-! ## NextDate on well-formed rules -/

/-- Any parseable anchor and well-formed rule make `NextDate` succeed with a
valid date that is chronologically strictly past `now` and formats strictly
above `now`'s format. -/
theorem nextDate_ok (now anc : GoDate) (ancS rule : String)
    (hnv : ValidDate now) (hny : now.year ≤ 9999)
    (hanc : parseDate ancS = some anc) (hwf : WellFormedRule rule) :
    ∃ r, NextDate now ancS rule = .ok r ∧ ValidDate r
      ∧ lexLe (fmtD r) (fmtD now) = false ∧ key now < key r := by
  obtain ⟨hav, hay⟩ := parseDate_valid ancS anc hanc
  rcases hwf with hl | ⟨hl, v, hscan, hv1, hv400⟩ | ⟨hl, htok⟩
  · obtain ⟨hp, hd, hy⟩ := step_props_year
    obtain ⟨r, hloop, hvr, hg, hk⟩ := loop_master addOneYear now hnv hny hp hd hy
      (addOneYear anc) (addOneYear_valid anc hav) (by rw [addOneYear_year]; omega)
    exact ⟨r, by rw [NextDate_y now anc ancS rule hanc hl, hloop], hvr, hg, hk⟩
  · have hn1 : 1 ≤ v.toNat := by omega
    have hn2 : v.toNat ≤ 400 := by omega
    obtain ⟨hp, hd, hy⟩ := step_props_days v.toNat hn1 hn2
    obtain ⟨r, hloop, hvr, hg, hk⟩ := loop_master (addDays v.toNat) now hnv hny hp hd hy
      (addDays v.toNat anc) (addDays_valid _ anc hav)
      (by have := addDays_year_le v.toNat anc; omega)
    refine ⟨r, ?_, hvr, hg, hk⟩
    rw [NextDate_d now anc ancS rule hanc hl, hscan]
    show (if v ≤ 0 ∨ 400 < v then _ else _) = _
    rw [if_neg (by omega), hloop]
  · obtain ⟨hp, hd, hy⟩ := step_props_days 1 le_rfl (by norm_num)
    obtain ⟨r, hloop, hvr, hg, hk⟩ := loop_master (addDays 1) now hnv hny hp hd hy
      (addDays 1 anc) (addDays_valid _ anc hav)
      (by have := addDays_year_le 1 anc; omega)
    refine ⟨r, ?_, hvr, hg, hk⟩
    rw [NextDate_w now anc ancS rule hanc hl, if_pos htok, hloop]

/-! ## Branch selection of `normalizeDate` -/

theorem normalizeDate_emptyDate (now : GoDate) (rep : String) :
    normalizeDate now "" rep = .ok now := by
  unfold normalizeDate
  rw [if_pos rfl]

theorem normalizeDate_future (now pd : GoDate) (ds rep : String) (hne : ds ≠ "")
    (h : parseDate ds = some pd) (hlt : lexLt (fmtD pd) (fmtD now) = false) :
    normalizeDate now ds rep = .ok pd := by
  unfold normalizeDate
  rw [if_neg hne, h]
  show (if lexLt (fmtD pd) (fmtD now) = true then _ else _) = _
  rw [hlt]
  simp

theorem normalizeDate_past_norule (now pd : GoDate) (ds : String) (hne : ds ≠ "")
    (h : parseDate ds = some pd) (hlt : lexLt (fmtD pd) (fmtD now) = true) :
    normalizeDate now ds "" = .ok now := by
  unfold normalizeDate
  rw [if_neg hne, h]
  show (if lexLt (fmtD pd) (fmtD now) = true then _ else _) = _
  rw [hlt]
  simp

theorem normalizeDate_past_rule (now pd : GoDate) (ds rep : String) (hne : ds ≠ "")
    (h : parseDate ds = some pd) (hlt : lexLt (fmtD pd) (fmtD now) = true)
    (hrep : rep ≠ "") :
    normalizeDate now ds rep = NextDate now ds rep := by
  unfold normalizeDate
  rw [if_neg hne, h]
  show (if lexLt (fmtD pd) (fmtD now) = true then _ else _) = _
  rw [hlt]
  simp [hrep]

theorem normalizeDate_parseFail (now : GoDate) (ds rep : String) (hne : ds ≠ "")
    (h : parseDate ds = none) :
    normalizeDate now ds rep = .error .invalidDate := by
  unfold normalizeDate
  rw [if_neg hne, h]

/-- Shared helper: a date that parses and does not format strictly below `now`
is kept unchanged by normalization, whatever the rule text. -/
theorem normalizeDate_keep (now pd : GoDate) (ds rep : String)
    (hnv : ValidDate now) (hny : now.year ≤ 9999)
    (h : parseDate ds = some pd) (hge : key now ≤ key pd) :
    normalizeDate now ds rep = .ok pd := by
  obtain ⟨hpv, hpy⟩ := parseDate_valid ds pd h
  have hne : ds ≠ "" := by
    intro hc
    rw [hc] at h
    have hnone : parseDate "" = none := rfl
    rw [hnone] at h
    exact Option.noConfusion h
  have hlt : lexLt (fmtD pd) (fmtD now) = false := by
    rw [Bool.eq_false_iff, Ne]
    intro hc
    have := (fmt_lt_iff pd now hpv hpy hnv hny).mp hc
    omega
  exact normalizeDate_future now pd ds rep hne h hlt

set_option maxRecDepth 100000

/-! ## The claims -/

/-- C1: for every today and anchor that parse as valid `YYYYMMDD` calendar
dates and every well-formed rule (`y`, `d N` with `1 ≤ N ≤ 400`, or `w ...`
with all listed days in 1..7), `NextDate` succeeds and returns a date strictly
greater (chronologically) than today. -/
theorem C1_computeNext_succeeds_past_today (tS ancS rule : String) (now anc : GoDate)
    (hnow : parseDate tS = some now) (hanc : parseDate ancS = some anc)
    (hwf : WellFormedRule rule) :
    ∃ r, NextDate now ancS rule = .ok r ∧ key now < key r := by
  obtain ⟨hnv, hny⟩ := parseDate_valid tS now hnow
  obtain ⟨r, hok, _, _, hk⟩ := nextDate_ok now anc ancS rule hnv hny hanc hwf
  exact ⟨r, hok, hk⟩

theorem C1_witness :
    (parseDate "20240301" = some ⟨2024, 3, 1⟩
      ∧ parseDate "20240101" = some ⟨2024, 1, 1⟩
      ∧ WellFormedRule "d 7")
    ∧ ∃ r, NextDate ⟨2024, 3, 1⟩ "20240101" "d 7" = .ok r
        ∧ key ⟨2024, 3, 1⟩ < key r := by
  refine ⟨⟨by decide, by decide, Or.inr (Or.inl ⟨by decide, 7, by decide, by decide, by decide⟩)⟩, ?_⟩
  exact C1_computeNext_succeeds_past_today "20240301" "20240101" "d 7" ⟨2024, 3, 1⟩ ⟨2024, 1, 1⟩
    (by decide) (by decide)
    (Or.inr (Or.inl ⟨by decide, 7, by decide, by decide, by decide⟩))

/-- C7: on every parseable today and anchor (however far apart) and
well-formed rule, the advancement loop of `NextDate` terminates: the function
returns a result instead of exhausting its fuel. -/
theorem C7_computeNext_terminates (tS ancS rule : String) (now anc : GoDate)
    (hnow : parseDate tS = some now) (hanc : parseDate ancS = some anc)
    (hwf : WellFormedRule rule) :
    ∃ r, NextDate now ancS rule = .ok r := by
  obtain ⟨hnv, hny⟩ := parseDate_valid tS now hnow
  obtain ⟨r, hok, _⟩ := nextDate_ok now anc ancS rule hnv hny hanc hwf
  exact ⟨r, hok⟩

theorem C7_witness :
    (parseDate "20240301" = some ⟨2024, 3, 1⟩
      ∧ parseDate "00010101" = some ⟨1, 1, 1⟩
      ∧ WellFormedRule "y")
    ∧ ∃ r, NextDate ⟨2024, 3, 1⟩ "00010101" "y" = .ok r := by
  refine ⟨⟨by decide, by decide, Or.inl (by decide)⟩, ?_⟩
  exact C7_computeNext_terminates "20240301" "00010101" "y" ⟨2024, 3, 1⟩ ⟨1, 1, 1⟩
    (by decide) (by decide) (Or.inl (by decide))

/-- C2: when the input date parses to a calendar date that is today or later,
normalization returns the parsed date unchanged for any rule text, valid or
not: no recurrence computation is applied. -/
theorem C2_future_date_kept (now pd : GoDate) (ds rep : String)
    (hnv : ValidDate now) (hny : now.year ≤ 9999)
    (h : parseDate ds = some pd) (hge : key now ≤ key pd) :
    normalizeDate now ds rep = .ok pd :=
  normalizeDate_keep now pd ds rep hnv hny h hge

theorem C2_witness :
    (ValidDate ⟨2024, 3, 1⟩ ∧ (2024 : Nat) ≤ 9999
      ∧ parseDate "20240315" = some ⟨2024, 3, 15⟩
      ∧ key ⟨2024, 3, 1⟩ ≤ key ⟨2024, 3, 15⟩)
    ∧ normalizeDate ⟨2024, 3, 1⟩ "20240315" "d 7" = .ok ⟨2024, 3, 15⟩ := by
  refine ⟨⟨by decide, by decide, by decide, by decide⟩, ?_⟩
  exact C2_future_date_kept ⟨2024, 3, 1⟩ ⟨2024, 3, 15⟩ "20240315" "d 7"
    (by decide) (by decide) (by decide) (by decide)

/-- C10: the handlers validate the rule only for past-dated tasks: an empty
or today-or-later date is stored with any rule text whatsoever passed through
unchanged and no error. -/
theorem C10_rule_unvalidated_when_not_past (now pd : GoDate) (ds rep : String)
    (hnv : ValidDate now) (hny : now.year ≤ 9999) :
    (ds = "" → storeTask now ds rep = .ok (now, rep))
    ∧ (parseDate ds = some pd → key now ≤ key pd →
        storeTask now ds rep = .ok (pd, rep)) := by
  constructor
  · intro h
    subst h
    unfold storeTask
    rw [normalizeDate_emptyDate]
    rfl
  · intro h hge
    unfold storeTask
    rw [normalizeDate_keep now pd ds rep hnv hny h hge]
    rfl

theorem C10_witness :
    (ValidDate ⟨2024, 3, 1⟩ ∧ (2024 : Nat) ≤ 9999)
    ∧ storeTask ⟨2024, 3, 1⟩ "" "d 500" = .ok (⟨2024, 3, 1⟩, "d 500")
    ∧ storeTask ⟨2024, 3, 1⟩ "20240315" "x" = .ok (⟨2024, 3, 15⟩, "x") := by
  refine ⟨⟨by decide, by decide⟩, ?_, ?_⟩
  · exact (C10_rule_unvalidated_when_not_past ⟨2024, 3, 1⟩ ⟨2024, 3, 1⟩ "" "d 500"
      (by decide) (by decide)).1 rfl
  · exact (C10_rule_unvalidated_when_not_past ⟨2024, 3, 1⟩ ⟨2024, 3, 15⟩ "20240315" "x"
      (by decide) (by decide)).2 (by decide) (by decide)

theorem C5_invalidRepeat_iff (tS ancS rule : String) (now anc : GoDate)
    (hnow : parseDate tS = some now) (hanc : parseDate ancS = some anc) :
    (NextDate now ancS rule = .error .invalidRepeat ↔
      (rule.toList.take 2 = ['d', ' ']
        ∧ (scanInt (rule.toList.drop 2) = none
           ∨ ∃ v, scanInt (rule.toList.drop 2) = some v ∧ (v ≤ 0 ∨ 400 < v)))
      ∨ (rule.toList.take 2 = ['w', ' ']
        ∧ weekTokensOk (rule.toList.drop 2) = false))
    ∧ NextDate now ancS "d 0" = .error .invalidRepeat
    ∧ NextDate now ancS "d 401" = .error .invalidRepeat
    ∧ NextDate now ancS "d 500" = .error .invalidRepeat
    ∧ NextDate now ancS "d x" = .error .invalidRepeat
    ∧ NextDate now ancS "w 0,8" = .error .invalidRepeat
    ∧ NextDate now ancS "d \t5" ≠ .error .invalidRepeat
    ∧ NextDate now ancS "w \t1" ≠ .error .invalidRepeat := by
  refine ⟨?_, ?_, ?_, ?_, ?_, ?_, ?_, ?_⟩
  · by_cases h2 : rule.toList.take 2 = ['d', ' ']
    · rw [NextDate_d now anc ancS rule hanc h2]
      rcases hscan : scanInt (rule.toList.drop 2) with _ | v
      · constructor
        · intro _
          exact Or.inl ⟨h2, Or.inl rfl⟩
        · intro _
          rfl
      · show ((if v ≤ 0 ∨ 400 < v then Except.error NdErr.invalidRepeat else _) = _) ↔ _
        by_cases hr : v ≤ 0 ∨ 400 < v
        · rw [if_pos hr]
          exact ⟨fun _ => Or.inl ⟨h2, Or.inr ⟨v, rfl, hr⟩⟩, fun _ => rfl⟩
        · rw [if_neg hr]
          constructor
          · intro hc
            rcases hloop : loopIter (addDays v.toNat) now FUEL (addDays v.toNat anc) with _ | r <;>
              rw [hloop] at hc <;> exact absurd hc (by simp)
          · intro hc
            exfalso
            rcases hc with ⟨_, hd⟩ | ⟨hw, _⟩
            · rcases hd with hn | ⟨v2, hv2, hr2⟩
              · exact Option.noConfusion hn
              · have hvv := Option.some.inj hv2
                rw [← hvv] at hr2
                exact hr hr2
            · rw [h2] at hw
              exact absurd hw (by decide)
    · by_cases h3 : rule.toList.take 2 = ['w', ' ']
      · rw [NextDate_w now anc ancS rule hanc h3]
        by_cases htok : weekTokensOk (rule.toList.drop 2) = true
        · rw [if_pos htok]
          constructor
          · intro hc
            rcases hloop : loopIter (addDays 1) now FUEL (addDays 1 anc) with _ | r <;>
              rw [hloop] at hc <;> exact absurd hc (by simp)
          · intro hc
            exfalso
            rcases hc with ⟨hd, _⟩ | ⟨_, hw⟩
            · exact h2 hd
            · rw [htok] at hw
              exact Bool.noConfusion hw
        · rw [if_neg htok]
          constructor
          · intro _
            exact Or.inr ⟨h3, Bool.eq_false_iff.mpr htok⟩
          · intro _
            rfl
      · by_cases h0 : rule.toList = []
        · rw [NextDate_empty now anc ancS rule hanc h0]
          constructor
          · intro hc
            exact absurd hc (by simp)
          · intro hc
            exfalso
            rcases hc with ⟨hd, _⟩ | ⟨hw, _⟩
            · exact h2 hd
            · exact h3 hw
        · by_cases h1 : rule.toList = ['y']
          · rw [NextDate_y now anc ancS rule hanc h1]
            constructor
            · intro hc
              rcases hloop : loopIter addOneYear now FUEL (addOneYear anc) with _ | r <;>
                rw [hloop] at hc <;> exact absurd hc (by simp)
            · intro hc
              exfalso
              rcases hc with ⟨hd, _⟩ | ⟨hw, _⟩
              · exact h2 hd
              · exact h3 hw
          · rw [NextDate_other now anc ancS rule hanc h0 h1 h2 h3]
            constructor
            · intro hc
              exact absurd hc (by simp)
            · intro hc
              exfalso
              rcases hc with ⟨hd, _⟩ | ⟨hw, _⟩
              · exact h2 hd
              · exact h3 hw
  · rw [NextDate_d now anc ancS "d 0" hanc (by decide)]
    rw [show scanInt ("d 0".toList.drop 2) = some 0 from by decide]
    show (if (0:Int) ≤ 0 ∨ 400 < (0:Int) then _ else _) = _
    rw [if_pos (by norm_num)]
  · rw [NextDate_d now anc ancS "d 401" hanc (by decide)]
    rw [show scanInt ("d 401".toList.drop 2) = some 401 from by decide]
    show (if (401:Int) ≤ 0 ∨ 400 < (401:Int) then _ else _) = _
    rw [if_pos (by norm_num)]
  · rw [NextDate_d now anc ancS "d 500" hanc (by decide)]
    rw [show scanInt ("d 500".toList.drop 2) = some 500 from by decide]
    show (if (500:Int) ≤ 0 ∨ 400 < (500:Int) then _ else _) = _
    rw [if_pos (by norm_num)]
  · rw [NextDate_d now anc ancS "d x" hanc (by decide)]
    rw [show scanInt ("d x".toList.drop 2) = none from by decide]
  · rw [NextDate_w now anc ancS "w 0,8" hanc (by decide)]
    rw [if_neg (by decide)]
  · rw [NextDate_d now anc ancS "d \t5" hanc (by decide)]
    rw [show scanInt ("d \t5".toList.drop 2) = some 5 from by decide]
    show (if (5 : Int) ≤ 0 ∨ 400 < (5 : Int) then _ else _) ≠ _
    rw [if_neg (by norm_num)]
    rcases hloop : loopIter (addDays (5 : Int).toNat) now FUEL (addDays (5 : Int).toNat anc)
      with _ | r <;> simp
  · rw [NextDate_w now anc ancS "w \t1" hanc (by decide)]
    rw [if_pos (by decide)]
    rcases hloop : loopIter (addDays 1) now FUEL (addDays 1 anc) with _ | r <;> simp

theorem C5_witness :
    (parseDate "20240301" = some ⟨2024, 3, 1⟩
      ∧ parseDate "20240101" = some ⟨2024, 1, 1⟩)
    ∧ NextDate ⟨2024, 3, 1⟩ "20240101" "d 500" = .error .invalidRepeat := by
  refine ⟨⟨by decide, by decide⟩, ?_⟩
  exact (C5_invalidRepeat_iff "20240301" "20240101" "d 7" ⟨2024, 3, 1⟩ ⟨2024, 1, 1⟩
    (by decide) (by decide)).2.2.2.1

/-! ## Exact result of the one-day loop -/

theorem addDays_one (d : GoDate) : addDays 1 d = nextDay d := by
  unfold addDays
  simp [Function.iterate_one]

theorem addDays_one_fun : addDays 1 = nextDay := funext addDays_one

theorem nextDay_year_le9999 (now : GoDate) (hnv : ValidDate now) (hny : now.year ≤ 9999)
    (hnd : now ≠ ⟨9999, 12, 31⟩) : (nextDay now).year ≤ 9999 := by
  obtain ⟨hm1, hm2, hd1, hd2⟩ := hnv
  unfold nextDay
  split_ifs with h1 h2
  · simpa using hny
  · simpa using hny
  · simp only [goDate_mk_year]
    have hm12 : now.month = 12 := by omega
    have hdim : daysInMonth now.year now.month = 31 := by rw [hm12, daysInMonth_twelve]
    have hd31 : now.day = 31 := by omega
    rcases Nat.lt_or_ge now.year 9999 with hy | hy
    · omega
    · exfalso
      apply hnd
      have : now.year = 9999 := by omega
      cases now
      simp_all

/-- Started at or before `now`, the one-day loop lands exactly on the calendar
successor of `now` (provided that successor still has a four-digit year). -/
theorem loopIter_w_exact (now : GoDate) (hnv : ValidDate now) (hny : now.year ≤ 9999)
    (hnd : now ≠ ⟨9999, 12, 31⟩) :
    ∀ f d, ValidDate d → key d ≤ key now → key now + 2 - key d ≤ f →
      loopIter nextDay now f d = some (nextDay now) := by
  intro f
  induction f with
  | zero => intro d _ hk hf; omega
  | succ f ih =>
    intro d hv hk hf
    have hdy : d.year ≤ 9999 := le_trans (year_le_of_key_le d now hv hnv hk) hny
    have hguard : lexLe (fmtD d) (fmtD now) = true :=
      (fmt_le_iff d now hv hdy hnv hny).mpr hk
    rw [loopIter, if_pos hguard]
    rcases Nat.eq_or_lt_of_le hk with heq | hlt
    · -- d = now: one more guard test on nextDay now, which fails
      have hdn : d = now := key_inj d now hv hnv heq
      subst hdn
      have hgt := nextDay_key_gt d hv
      have hy' : (nextDay d).year ≤ 9999 := nextDay_year_le9999 d hv hny hnd
      have hguard' : lexLe (fmtD (nextDay d)) (fmtD d) = false := by
        rw [Bool.eq_false_iff, Ne]
        intro hc
        have := (fmt_le_iff (nextDay d) d (nextDay_valid d hv) hy' hv hdy).mp hc
        omega
      obtain ⟨f, rfl⟩ : ∃ g, f = g + 1 := ⟨f - 1, by omega⟩
      rw [loopIter, if_neg (by rw [hguard']; simp)]
    · have hsucc := nextDay_succ_le d now hv hnv hlt
      have hgt := nextDay_key_gt d hv
      exact ih (nextDay d) (nextDay_valid d hv) hsucc (by omega)

theorem key_lt_FUEL (d : GoDate) (hv : ValidDate d) (hy : d.year ≤ 9999) :
    key d + 2 ≤ FUEL := by
  obtain ⟨hm1, hm2, hd1, hd2⟩ := hv
  have h31 : d.day ≤ 31 := le_trans hd2 (daysInMonth_le_31 _ _)
  unfold key FUEL
  omega

/-- The full one-day loop of the `w` branch, from any anchor at or before
`now`. -/
theorem w_loop_result (now anc : GoDate) (hnv : ValidDate now) (hny : now.year ≤ 9999)
    (hnd : now ≠ ⟨9999, 12, 31⟩) (hav : ValidDate anc) (hle : key anc ≤ key now) :
    loopIter (addDays 1) now FUEL (addDays 1 anc) = some (nextDay now) := by
  rw [addDays_one_fun]
  rcases Nat.eq_or_lt_of_le hle with heq | hlt
  · -- anchor = now: the first candidate is already past now
    have han : anc = now := key_inj anc now hav hnv heq
    subst han
    have hy' : (nextDay anc).year ≤ 9999 := nextDay_year_le9999 anc hav hny hnd
    have hay : anc.year ≤ 9999 := hny
    have hguard' : lexLe (fmtD (nextDay anc)) (fmtD anc) = false := by
      rw [Bool.eq_false_iff, Ne]
      intro hc
      have := (fmt_le_iff (nextDay anc) anc (nextDay_valid anc hav) hy' hav hay).mp hc
      have := nextDay_key_gt anc hav
      omega
    show loopIter nextDay anc FUEL (nextDay anc) = some (nextDay anc)
    obtain ⟨g, hg⟩ : ∃ g, FUEL = g + 1 := ⟨FUEL - 1, by unfold FUEL; omega⟩
    rw [hg, loopIter, if_neg (by rw [hguard']; simp)]
  · have hsucc := nextDay_succ_le anc now hav hnv hlt
    have hgt := nextDay_key_gt anc hav
    apply loopIter_w_exact now hnv hny hnd FUEL (nextDay anc) (nextDay_valid anc hav) hsucc
    have := key_lt_FUEL now hnv hny
    omega

/-! ## Inversion of a successful NextDate -/

/-- A successful `NextDate` can only come from one of the three rule branches,
with its loop returning the result. -/
theorem nextDate_ok_inv (now anc : GoDate) (ancS rule : String) (r : GoDate)
    (hanc : parseDate ancS = some anc) (hok : NextDate now ancS rule = .ok r) :
    (rule.toList = ['y'] ∧ loopIter addOneYear now FUEL (addOneYear anc) = some r)
    ∨ (∃ v : Int, rule.toList.take 2 = ['d', ' ']
        ∧ scanInt (rule.toList.drop 2) = some v ∧ 1 ≤ v ∧ v ≤ 400
        ∧ loopIter (addDays v.toNat) now FUEL (addDays v.toNat anc) = some r)
    ∨ (rule.toList.take 2 = ['w', ' '] ∧ weekTokensOk (rule.toList.drop 2) = true
        ∧ loopIter (addDays 1) now FUEL (addDays 1 anc) = some r) := by
  by_cases h2 : rule.toList.take 2 = ['d', ' ']
  · rw [NextDate_d now anc ancS rule hanc h2] at hok
    rcases hscan : scanInt (rule.toList.drop 2) with _ | v <;> rw [hscan] at hok
    · exact absurd hok (by simp)
    · rw [show (match some v with
          | none => Except.error NdErr.invalidRepeat
          | some days =>
            if days ≤ 0 ∨ 400 < days then Except.error NdErr.invalidRepeat
            else
              match loopIter (addDays days.toNat) now FUEL (addDays days.toNat anc) with
              | some r => Except.ok r
              | none => Except.error NdErr.fuelOut) =
          (if v ≤ 0 ∨ 400 < v then Except.error NdErr.invalidRepeat
            else
              match loopIter (addDays v.toNat) now FUEL (addDays v.toNat anc) with
              | some r => Except.ok r
              | none => Except.error NdErr.fuelOut) from rfl] at hok
      by_cases hr : v ≤ 0 ∨ 400 < v
      · rw [if_pos hr] at hok
        exact absurd hok (by simp)
      · rw [if_neg hr] at hok
        rcases hloop : loopIter (addDays v.toNat) now FUEL (addDays v.toNat anc) with _ | r2 <;>
          rw [hloop] at hok
        · exact absurd hok (by simp)
        · have hrr := Except.ok.inj hok
          subst hrr
          exact Or.inr (Or.inl ⟨v, h2, rfl, by omega, by omega, hloop⟩)
  · by_cases h3 : rule.toList.take 2 = ['w', ' ']
    · rw [NextDate_w now anc ancS rule hanc h3] at hok
      by_cases htok : weekTokensOk (rule.toList.drop 2) = true
      · rw [if_pos htok] at hok
        rcases hloop : loopIter (addDays 1) now FUEL (addDays 1 anc) with _ | r2 <;>
          rw [hloop] at hok
        · exact absurd hok (by simp)
        · have hrr := Except.ok.inj hok
          subst hrr
          exact Or.inr (Or.inr ⟨h3, htok, rfl⟩)
      · rw [if_neg htok] at hok
        exact absurd hok (by simp)
    · by_cases h0 : rule.toList = []
      · rw [NextDate_empty now anc ancS rule hanc h0] at hok
        exact absurd hok (by simp)
      · by_cases h1 : rule.toList = ['y']
        · rw [NextDate_y now anc ancS rule hanc h1] at hok
          rcases hloop : loopIter addOneYear now FUEL (addOneYear anc) with _ | r2 <;>
            rw [hloop] at hok
          · exact absurd hok (by simp)
          · have hrr := Except.ok.inj hok
            subst hrr
            exact Or.inl ⟨h1, rfl⟩
        · rw [NextDate_other now anc ancS rule hanc h0 h1 h2 h3] at hok
          exact absurd hok (by simp)

/-- A successful `NextDate` always returns a valid calendar date. -/
theorem nextDate_ok_valid (now anc : GoDate) (ancS rule : String) (r : GoDate)
    (hanc : parseDate ancS = some anc) (hok : NextDate now ancS rule = .ok r) :
    ValidDate r := by
  obtain ⟨hav, _⟩ := parseDate_valid ancS anc hanc
  rcases nextDate_ok_inv now anc ancS rule r hanc hok with
    ⟨_, hloop⟩ | ⟨v, _, _, _, _, hloop⟩ | ⟨_, _, hloop⟩
  · exact (loopIter_spec addOneYear now ValidDate
      (fun d hd _ => addOneYear_valid d hd) FUEL _ r (addOneYear_valid anc hav) hloop).1
  · exact (loopIter_spec (addDays v.toNat) now ValidDate
      (fun d hd _ => addDays_valid _ d hd) FUEL _ r (addDays_valid _ anc hav) hloop).1
  · exact (loopIter_spec (addDays 1) now ValidDate
      (fun d hd _ => addDays_valid _ d hd) FUEL _ r (addDays_valid _ anc hav) hloop).1

/-- C4 counterexample: with a future anchor, the weekly rule does not land one
day past `today`; it lands one day past the anchor. -/
theorem C4_counterexample :
    parseDate "20240301" = some ⟨2024, 3, 1⟩
    ∧ parseDate "20300101" = some ⟨2030, 1, 1⟩
    ∧ NextDate ⟨2024, 3, 1⟩ "20300101" "w 1,3,5" = .ok ⟨2030, 1, 2⟩
    ∧ (⟨2030, 1, 2⟩ : GoDate) ≠ nextDay ⟨2024, 3, 1⟩ := by
  refine ⟨by decide, by decide, by decide, by decide⟩

/-- C4 (amended): for a weekly rule with all tokens in 1..7, an anchor at or
before today, and today not `9999-12-31`, `NextDate` returns exactly the
calendar day after today, independently of which weekdays the rule lists. -/
theorem C4_amended_one_day_after (tS ancS rule : String) (now anc : GoDate)
    (hnow : parseDate tS = some now) (hanc : parseDate ancS = some anc)
    (hl : rule.toList.take 2 = ['w', ' '])
    (htok : weekTokensOk (rule.toList.drop 2) = true)
    (hle : key anc ≤ key now) (hnd : now ≠ ⟨9999, 12, 31⟩) :
    NextDate now ancS rule = .ok (nextDay now)
    ∧ ∀ rule2 : String, rule2.toList.take 2 = ['w', ' '] →
        weekTokensOk (rule2.toList.drop 2) = true →
        NextDate now ancS rule2 = NextDate now ancS rule := by
  obtain ⟨hnv, hny⟩ := parseDate_valid tS now hnow
  obtain ⟨hav, hay⟩ := parseDate_valid ancS anc hanc
  have hloop := w_loop_result now anc hnv hny hnd hav hle
  constructor
  · rw [NextDate_w now anc ancS rule hanc hl, if_pos htok, hloop]
  · intro rule2 hl2 htok2
    rw [NextDate_w now anc ancS rule2 hanc hl2, if_pos htok2,
      NextDate_w now anc ancS rule hanc hl, if_pos htok]

theorem C4_witness :
    (parseDate "20240301" = some ⟨2024, 3, 1⟩
      ∧ parseDate "20240215" = some ⟨2024, 2, 15⟩
      ∧ "w 1,3,5".toList.take 2 = ['w', ' ']
      ∧ weekTokensOk ("w 1,3,5".toList.drop 2) = true
      ∧ key ⟨2024, 2, 15⟩ ≤ key ⟨2024, 3, 1⟩
      ∧ (⟨2024, 3, 1⟩ : GoDate) ≠ ⟨9999, 12, 31⟩)
    ∧ NextDate ⟨2024, 3, 1⟩ "20240215" "w 1,3,5" = .ok (nextDay ⟨2024, 3, 1⟩) := by
  refine ⟨⟨by decide, by decide, by decide, by decide, by decide, by decide⟩, ?_⟩
  exact (C4_amended_one_day_after "20240301" "20240215" "w 1,3,5" ⟨2024, 3, 1⟩ ⟨2024, 2, 15⟩
    (by decide) (by decide) (by decide) (by decide) (by decide) (by decide)).1

theorem daysInMonth_two_le (y : Nat) : daysInMonth y 2 ≤ 29 := by
  unfold daysInMonth
  rw [if_pos rfl]
  split_ifs <;> omega

/-- Decomposition of the yearly loop result, in the no-overflow regime. -/
theorem y_loop_decomp (now anc r : GoDate)
    (hnv : ValidDate now) (hny8 : now.year ≤ 9998)
    (hav : ValidDate anc) (hle : key anc ≤ key now)
    (hloop : loopIter addOneYear now FUEL (addOneYear anc) = some r) :
    (r = addOneYear anc)
    ∨ (∃ p, ValidDate p ∧ ¬(p.month = 2 ∧ p.day = 29) ∧ key p ≤ key now
        ∧ r = addOneYear p) := by
  have hspec := loopIter_spec addOneYear now
    (fun d => ValidDate d ∧ d.year ≤ now.year + 1 ∧ ¬(d.month = 2 ∧ d.day = 29))
    (by
      intro d ⟨hdv, hdy, _⟩ hguard
      refine ⟨addOneYear_valid d hdv, ?_, addOneYear_not_feb29 d hdv⟩
      have hd9 : d.year ≤ 9999 := by omega
      have hk := (fmt_le_iff d now hdv hd9 hnv (by omega)).mp hguard
      have := year_le_of_key_le d now hdv hnv hk
      rw [addOneYear_year]
      omega)
    FUEL (addOneYear anc) r
    ⟨addOneYear_valid anc hav, by
        rw [addOneYear_year]
        have := year_le_of_key_le anc now hav hnv hle
        omega,
      addOneYear_not_feb29 anc hav⟩
    hloop
  rcases hspec.2.2 with hr0 | ⟨p, ⟨hpv, hpy, hpnf⟩, hguard, hrp⟩
  · exact Or.inl hr0
  · right
    refine ⟨p, hpv, hpnf, ?_, hrp⟩
    have hp9 : p.year ≤ 9999 := by omega
    exact (fmt_le_iff p now hpv hp9 hnv (by omega)).mp hguard

/-- C3 (amended): for the yearly rule with anchor at or before today, today's
year at most 9998, and not (anchor = today = a Feb 29), the result is past
today and subtracting one calendar year lands at or before today. -/
theorem C3_amended_year_sub (tS ancS : String) (now anc : GoDate)
    (hnow : parseDate tS = some now) (hanc : parseDate ancS = some anc)
    (hle : key anc ≤ key now) (hny8 : now.year ≤ 9998)
    (hnf : ¬(anc = now ∧ anc.month = 2 ∧ anc.day = 29)) :
    ∃ r, NextDate now ancS "y" = .ok r ∧ key now < key r
      ∧ key (subOneYear r) ≤ key now := by
  obtain ⟨hnv, hny⟩ := parseDate_valid tS now hnow
  obtain ⟨hav, hay⟩ := parseDate_valid ancS anc hanc
  obtain ⟨r, hok, hvr, hg, hk⟩ := nextDate_ok now anc ancS "y" hnv hny hanc
    (Or.inl (by decide))
  refine ⟨r, hok, hk, ?_⟩
  rcases nextDate_ok_inv now anc ancS "y" r hanc hok with
    ⟨_, hloop⟩ | ⟨v, hl2, _⟩ | ⟨hl3, _⟩
  · rcases y_loop_decomp now anc r hnv hny8 hav hle hloop with hr0 | ⟨p, hpv, hpnf, hpk, hrp⟩
    · subst hr0
      by_cases hfeb : anc.month = 2 ∧ anc.day = 29
      · obtain ⟨hf2, hf29⟩ := hfeb
        have hanc_lt : key anc < key now := by
          rcases Nat.eq_or_lt_of_le hle with he | hl
          · exact absurd ⟨key_inj anc now hav hnv he, hf2, hf29⟩ hnf
          · exact hl
        rcases addOneYear_cases anc hav with ⟨hnf2, _⟩ | ⟨_, heq⟩
        · exact absurd ⟨hf2, hf29⟩ hnf2
        · rw [heq]
          have hsub : subOneYear ⟨anc.year + 1, 3, 1⟩ = ⟨anc.year, 3, 1⟩ := by
            unfold subOneYear
            rw [if_pos (by simp only [goDate_mk_year, goDate_mk_month, goDate_mk_day]; exact daysInMonth_pos _ _)]
            simp
          rw [hsub]
          -- the gap: no valid date lies strictly between Feb 29 and Mar 1
          have h229 : daysInMonth anc.year 2 = 29 := by
            have hup := daysInMonth_two_le anc.year
            obtain ⟨_, _, _, had2⟩ := hav
            rw [hf2] at had2
            omega
          obtain ⟨hnm1, hnm2, hnd1, hnd2⟩ := hnv
          rw [key_mk]
          unfold key at hanc_lt hle ⊢
          rw [hf2, hf29] at hanc_lt
          by_cases hyy : now.year = anc.year
          · by_cases hmm : now.month = 2
            · exfalso
              rw [hyy, hmm, h229] at hnd2
              omega
            · have hnm31 : now.day ≤ 31 := le_trans hnd2 (daysInMonth_le_31 _ _)
              omega
          · have hnm31 : now.day ≤ 31 := le_trans hnd2 (daysInMonth_le_31 _ _)
            rcases Nat.lt_or_ge now.year anc.year with hyl | hyg
            · exfalso
              have h1 : now.year * 10000 + now.month * 100 + now.day
                  < anc.year * 10000 := by nlinarith
              omega
            · have hy1 : anc.year + 1 ≤ now.year := by omega
              have h1 : (anc.year + 1) * 10000 ≤ now.year * 10000 :=
                Nat.mul_le_mul_right _ hy1
              omega
      · rw [subOneYear_addOneYear anc hav hfeb]
        exact hle
    · rw [hrp, subOneYear_addOneYear p hpv hpnf]
      exact hpk
  · exact absurd hl2 (by decide)
  · exact absurd hl3 (by decide)

/-- C3 counterexample: with a future anchor (well inside a 50-year span),
subtracting one year from the yearly result lands strictly after today,
contradicting the claim as stated. -/
theorem C3_counterexample :
    parseDate "20240301" = some ⟨2024, 3, 1⟩
    ∧ parseDate "20300101" = some ⟨2030, 1, 1⟩
    ∧ NextDate ⟨2024, 3, 1⟩ "20300101" "y" = .ok ⟨2031, 1, 1⟩
    ∧ key ⟨2024, 3, 1⟩ < key (subOneYear ⟨2031, 1, 1⟩) := by
  refine ⟨by decide, by decide, by decide, by decide⟩

theorem C3_witness :
    (parseDate "20240301" = some ⟨2024, 3, 1⟩
      ∧ parseDate "20230215" = some ⟨2023, 2, 15⟩
      ∧ key ⟨2023, 2, 15⟩ ≤ key ⟨2024, 3, 1⟩
      ∧ (2024 : Nat) ≤ 9998
      ∧ ¬((⟨2023, 2, 15⟩ : GoDate) = ⟨2024, 3, 1⟩
          ∧ (⟨2023, 2, 15⟩ : GoDate).month = 2 ∧ (⟨2023, 2, 15⟩ : GoDate).day = 29))
    ∧ ∃ r, NextDate ⟨2024, 3, 1⟩ "20230215" "y" = .ok r ∧ key ⟨2024, 3, 1⟩ < key r
        ∧ key (subOneYear r) ≤ key ⟨2024, 3, 1⟩ := by
  refine ⟨⟨by decide, by decide, by decide, by decide, by decide⟩, ?_⟩
  exact C3_amended_year_sub "20240301" "20230215" ⟨2024, 3, 1⟩ ⟨2023, 2, 15⟩
    (by decide) (by decide) (by decide) (by decide) (by decide)

/-! ## Result-year bound in the no-overflow regime -/

theorem loop_result_year (step : GoDate → GoDate) (now : GoDate) (d0 r : GoDate)
    (hnv : ValidDate now)
    (hΔ : ∀ d, ValidDate d → (step d).year ≤ d.year + 2)
    (hpres : ∀ d, ValidDate d → ValidDate (step d))
    (hn97 : now.year ≤ 9997)
    (hd0 : ValidDate d0) (hy0 : d0.year ≤ now.year + 2)
    (hloop : loopIter step now FUEL d0 = some r) : r.year ≤ now.year + 2 := by
  have hspec := loopIter_spec step now (fun d => ValidDate d ∧ d.year ≤ now.year + 2)
    (by
      intro d hI hguard
      obtain ⟨hdv, hdy⟩ := hI
      refine ⟨hpres d hdv, ?_⟩
      have hk := (fmt_le_iff d now hdv (by omega) hnv (by omega)).mp hguard
      have h1 := year_le_of_key_le d now hdv hnv hk
      have h2 := hΔ d hdv
      omega)
    FUEL d0 r ⟨hd0, hy0⟩ hloop
  exact hspec.1.2

/-- C9 counterexample: a `NextDate` run whose result needs a five-digit year,
so the canonical form is nine characters, not eight. -/
theorem C9_counterexample :
    parseDate "09990101" = some ⟨999, 1, 1⟩
    ∧ parseDate "99990101" = some ⟨9999, 1, 1⟩
    ∧ NextDate ⟨999, 1, 1⟩ "99990101" "y" = .ok ⟨10000, 1, 1⟩
    ∧ (fmtD ⟨10000, 1, 1⟩).length ≠ 8 := by
  refine ⟨by decide, by decide, by decide, by decide⟩

/-- C9 (amended): any successful `NextDate` result is a valid calendar date,
and it is representable in the canonical eight-character form whenever the
anchor is at or before today and today's year is at most 9997. -/
theorem C9_amended_result_representable (tS ancS rule : String) (now anc r : GoDate)
    (hnow : parseDate tS = some now) (hanc : parseDate ancS = some anc)
    (hok : NextDate now ancS rule = .ok r) :
    ValidDate r ∧ (key anc ≤ key now → now.year ≤ 9997 → (fmtD r).length = 8) := by
  obtain ⟨hnv, hny⟩ := parseDate_valid tS now hnow
  obtain ⟨hav, hay⟩ := parseDate_valid ancS anc hanc
  have hvr := nextDate_ok_valid now anc ancS rule r hanc hok
  refine ⟨hvr, ?_⟩
  intro hle h97
  have hyanc : anc.year ≤ now.year := year_le_of_key_le anc now hav hnv hle
  have hry : r.year ≤ now.year + 2 := by
    rcases nextDate_ok_inv now anc ancS rule r hanc hok with
      ⟨_, hloop⟩ | ⟨v, _, _, hv1, hv400, hloop⟩ | ⟨_, _, hloop⟩
    · exact loop_result_year addOneYear now (addOneYear anc) r hnv
        (fun d _ => by rw [addOneYear_year]; omega) addOneYear_valid h97
        (addOneYear_valid anc hav) (by rw [addOneYear_year]; omega) hloop
    · exact loop_result_year (addDays v.toNat) now (addDays v.toNat anc) r hnv
        (fun d hd => addDays_year_le_two v.toNat d hd (by omega))
        (fun d hd => addDays_valid _ d hd) h97
        (addDays_valid _ anc hav)
        (by have := addDays_year_le_two v.toNat anc hav (by omega); omega) hloop
    · exact loop_result_year (addDays 1) now (addDays 1 anc) r hnv
        (fun d hd => addDays_year_le_two 1 d hd (by norm_num))
        (fun d hd => addDays_valid _ d hd) h97
        (addDays_valid _ anc hav)
        (by have := addDays_year_le_two 1 anc hav (by norm_num); omega) hloop
  exact fmtD_length r hvr (by omega)

theorem C9_witness :
    (parseDate "20240301" = some ⟨2024, 3, 1⟩
      ∧ parseDate "20240101" = some ⟨2024, 1, 1⟩
      ∧ NextDate ⟨2024, 3, 1⟩ "20240101" "d 7" = .ok ⟨2024, 3, 4⟩
      ∧ key ⟨2024, 1, 1⟩ ≤ key ⟨2024, 3, 1⟩ ∧ (2024 : Nat) ≤ 9997)
    ∧ ValidDate ⟨2024, 3, 4⟩ ∧ (fmtD ⟨2024, 3, 4⟩).length = 8 := by
  refine ⟨⟨by decide, by decide, by decide, by decide, by decide⟩, ?_⟩
  have h := C9_amended_result_representable "20240301" "20240101" "d 7"
    ⟨2024, 3, 1⟩ ⟨2024, 1, 1⟩ ⟨2024, 3, 4⟩ (by decide) (by decide) (by decide)
  exact ⟨h.1, h.2 (by decide) (by decide)⟩

theorem NextDateChron_empty (now anc : GoDate) (ancS rule : String)
    (h : parseDate ancS = some anc) (hl : rule.toList = []) :
    NextDateChron now ancS rule = .error .emptyRule := by
  unfold NextDateChron
  rw [h]
  show (if rule.toList = [] then _ else _) = _
  rw [if_pos hl]

theorem NextDateChron_other (now anc : GoDate) (ancS rule : String)
    (h : parseDate ancS = some anc) (h0 : rule.toList ≠ []) (h1 : rule.toList ≠ ['y'])
    (h2 : rule.toList.take 2 ≠ ['d', ' ']) (h3 : rule.toList.take 2 ≠ ['w', ' ']) :
    NextDateChron now ancS rule = .error .unsupportedRule := by
  unfold NextDateChron
  rw [h]
  show (if rule.toList = [] then _ else _) = _
  rw [if_neg h0, if_neg h1, if_neg h2, if_neg h3]

/-- On dates whose whole chain stays in the four-digit-year range, the
string-comparison loop and the calendar-value-comparison loop coincide. -/
theorem loopIter_eq_chron (step : GoDate → GoDate) (now : GoDate)
    (hnv : ValidDate now) (hn97 : now.year ≤ 9997)
    (hpres : ∀ d, ValidDate d → ValidDate (step d))
    (hΔ : ∀ d, ValidDate d → (step d).year ≤ d.year + 2) :
    ∀ f d, ValidDate d → d.year ≤ now.year + 2 →
      loopIter step now f d = loopIterChron step now f d := by
  intro f
  induction f with
  | zero => intro d _ _; rfl
  | succ f ih =>
    intro d hdv hdy
    have h9 : d.year ≤ 9999 := by omega
    by_cases hk : key d ≤ key now
    · have hguard : lexLe (fmtD d) (fmtD now) = true :=
        (fmt_le_iff d now hdv h9 hnv (by omega)).mpr hk
      rw [loopIter, if_pos hguard, loopIterChron, if_pos hk]
      apply ih (step d) (hpres d hdv)
      have h1 := year_le_of_key_le d now hdv hnv hk
      have h2 := hΔ d hdv
      omega
    · have hguard : ¬ lexLe (fmtD d) (fmtD now) = true := by
        intro hc
        exact hk ((fmt_le_iff d now hdv h9 hnv (by omega)).mp hc)
      rw [loopIter, if_neg hguard, loopIterChron, if_neg hk]

/-- C8 counterexample: parsing both dates from eight characters, the
calendar-value variant and the string-comparison variant of the engine
disagree (the loop leaves the eight-character range). -/
theorem C8_counterexample :
    parseDate "99990601" = some ⟨9999, 6, 1⟩
    ∧ parseDate "99990101" = some ⟨9999, 1, 1⟩
    ∧ NextDateChron ⟨9999, 6, 1⟩ "99990101" "y" = .ok ⟨10000, 1, 1⟩
    ∧ NextDate ⟨9999, 6, 1⟩ "99990101" "y" ≠ .ok ⟨10000, 1, 1⟩ := by
  refine ⟨by decide, by decide, by decide, ?_⟩
  intro hc
  rcases nextDate_ok_inv ⟨9999, 6, 1⟩ ⟨9999, 1, 1⟩ "99990101" "y" ⟨10000, 1, 1⟩
    (by decide) hc with ⟨_, hloop⟩ | ⟨v, hl2, _⟩ | ⟨hl3, _⟩
  · have hguard := loopIter_guard_false addOneYear ⟨9999, 6, 1⟩ FUEL
      (addOneYear ⟨9999, 1, 1⟩) ⟨10000, 1, 1⟩ hloop
    rw [show lexLe (fmtD ⟨10000, 1, 1⟩) (fmtD ⟨9999, 6, 1⟩) = true from by decide] at hguard
    exact Bool.noConfusion hguard
  · exact absurd hl2 (by decide)
  · exact absurd hl3 (by decide)

/-- C8 (amended): string comparison of canonical forms agrees with
chronological comparison on all dates representable in the eight-character
format; and the calendar-comparing engine equals the string-comparing engine
whenever the anchor is at or before today and today's year is at most 9997
(so that the chain never leaves the representable range). -/
theorem C8_amended_refinement (tS ancS rule : String) (now anc : GoDate)
    (hnow : parseDate tS = some now) (hanc : parseDate ancS = some anc)
    (hle : key anc ≤ key now) (h97 : now.year ≤ 9997) :
    (∀ a b : GoDate, ValidDate a → a.year ≤ 9999 → ValidDate b → b.year ≤ 9999 →
      ((lexLe (fmtD a) (fmtD b) = true ↔ key a ≤ key b)
        ∧ (lexLt (fmtD a) (fmtD b) = true ↔ key a < key b)))
    ∧ NextDateChron now ancS rule = NextDate now ancS rule := by
  obtain ⟨hnv, hny⟩ := parseDate_valid tS now hnow
  obtain ⟨hav, hay⟩ := parseDate_valid ancS anc hanc
  have hyanc : anc.year ≤ now.year := year_le_of_key_le anc now hav hnv hle
  constructor
  · intro a b hav2 hay2 hbv hby
    exact ⟨fmt_le_iff a b hav2 hay2 hbv hby, fmt_lt_iff a b hav2 hay2 hbv hby⟩
  · by_cases h2 : rule.toList.take 2 = ['d', ' ']
    · rw [NextDate_d now anc ancS rule hanc h2, NextDateChron_d now anc ancS rule hanc h2]
      rcases hscan : scanInt (rule.toList.drop 2) with _ | v
      · rfl
      · show (if v ≤ 0 ∨ 400 < v then _ else _) = (if v ≤ 0 ∨ 400 < v then _ else _)
        by_cases hr : v ≤ 0 ∨ 400 < v
        · rw [if_pos hr, if_pos hr]
        · rw [if_neg hr, if_neg hr]
          rw [loopIter_eq_chron (addDays v.toNat) now hnv h97
            (fun d hd => addDays_valid _ d hd)
            (fun d hd => addDays_year_le_two v.toNat d hd (by omega))
            FUEL (addDays v.toNat anc) (addDays_valid _ anc hav)
            (by have := addDays_year_le_two v.toNat anc hav (by omega); omega)]
    · by_cases h3 : rule.toList.take 2 = ['w', ' ']
      · rw [NextDate_w now anc ancS rule hanc h3, NextDateChron_w now anc ancS rule hanc h3]
        by_cases htok : weekTokensOk (rule.toList.drop 2) = true
        · rw [if_pos htok, if_pos htok]
          rw [loopIter_eq_chron (addDays 1) now hnv h97
            (fun d hd => addDays_valid _ d hd)
            (fun d hd => addDays_year_le_two 1 d hd (by norm_num))
            FUEL (addDays 1 anc) (addDays_valid _ anc hav)
            (by have := addDays_year_le_two 1 anc hav (by norm_num); omega)]
        · rw [if_neg htok, if_neg htok]
      · by_cases h0 : rule.toList = []
        · rw [NextDate_empty now anc ancS rule hanc h0,
            NextDateChron_empty now anc ancS rule hanc h0]
        · by_cases h1 : rule.toList = ['y']
          · rw [NextDate_y now anc ancS rule hanc h1,
              NextDateChron_y now anc ancS rule hanc h1]
            rw [loopIter_eq_chron addOneYear now hnv h97 addOneYear_valid
              (fun d _ => by rw [addOneYear_year]; omega)
              FUEL (addOneYear anc) (addOneYear_valid anc hav)
              (by rw [addOneYear_year]; omega)]
          · rw [NextDate_other now anc ancS rule hanc h0 h1 h2 h3,
              NextDateChron_other now anc ancS rule hanc h0 h1 h2 h3]

theorem C8_witness :
    (parseDate "20240301" = some ⟨2024, 3, 1⟩
      ∧ parseDate "20240101" = some ⟨2024, 1, 1⟩
      ∧ key ⟨2024, 1, 1⟩ ≤ key ⟨2024, 3, 1⟩ ∧ (2024 : Nat) ≤ 9997)
    ∧ NextDateChron ⟨2024, 3, 1⟩ "20240101" "d 7" = NextDate ⟨2024, 3, 1⟩ "20240101" "d 7" := by
  refine ⟨⟨by decide, by decide, by decide, by decide⟩, ?_⟩
  exact (C8_amended_refinement "20240301" "20240101" "d 7" ⟨2024, 3, 1⟩ ⟨2024, 1, 1⟩
    (by decide) (by decide) (by decide) (by decide)).2

theorem normalizeDate_ok_inv (now : GoDate) (ds rep : String) (r : GoDate)
    (hok : normalizeDate now ds rep = .ok r) :
    r = now ∨ parseDate ds = some r
      ∨ ∃ pd, parseDate ds = some pd ∧ NextDate now ds rep = .ok r := by
  by_cases hne : ds = ""
  · subst hne
    rw [normalizeDate_emptyDate] at hok
    exact Or.inl (Except.ok.inj hok).symm
  · rcases hparse : parseDate ds with _ | pd
    · rw [normalizeDate_parseFail now ds rep hne hparse] at hok
      exact absurd hok (by simp)
    · by_cases hlt : lexLt (fmtD pd) (fmtD now) = true
      · by_cases hrep : rep = ""
        · subst hrep
          rw [normalizeDate_past_norule now pd ds hne hparse hlt] at hok
          exact Or.inl (Except.ok.inj hok).symm
        · rw [normalizeDate_past_rule now pd ds rep hne hparse hlt hrep] at hok
          exact Or.inr (Or.inr ⟨pd, rfl, hok⟩)
      · rw [normalizeDate_future now pd ds rep hne hparse (Bool.eq_false_iff.mpr hlt)] at hok
        have hpr := Except.ok.inj hok
        exact Or.inr (Or.inl (by rw [hpr]))

theorem padZeros_length (w : Nat) (l : List Nat) :
    (padZeros w l).length = max w l.length := by
  unfold padZeros
  simp only [List.length_append, List.length_replicate]
  omega

theorem natDigits_length_big (n : Nat) (h : 10000 ≤ n) : 5 ≤ (natDigits n).length := by
  have hne : n ≠ 0 := by omega
  have h1 : 10 ^ Nat.log 10 n ≤ n := Nat.pow_log_le_self 10 hne
  have h2 : n < 10 ^ (Nat.log 10 n + 1) := Nat.lt_pow_succ_log_self (by norm_num) n
  have hL : 4 ≤ Nat.log 10 n := by
    by_contra hc
    push_neg at hc
    have : 10 ^ (Nat.log 10 n + 1) ≤ 10 ^ 4 :=
      Nat.pow_le_pow_right (by norm_num) (by omega)
    have : n < 10 ^ 4 := by omega
    norm_num at this
    omega
  have hdig := digitsAux_eq (Nat.log 10 n) n n h1 h2 le_rfl
  rw [show natDigits n = digitsAux n n from rfl, hdig, natDigitsLen_length]
  omega

theorem fmtD_length_big (d : GoDate) (h : 10000 ≤ d.year) : 9 ≤ (fmtD d).length := by
  unfold fmtD
  simp only [List.length_append, padZeros_length]
  have h5 := natDigits_length_big d.year h
  omega

theorem formatStr_toList (d : GoDate) :
    (formatStr d).toList = (fmtD d).map (fun n => Char.ofNat (48 + n)) := rfl

/-- C6 counterexample: a past task of the year 9999 rolls to a five-digit
year; the resulting date no longer parses, so normalizing again fails instead
of returning the same date. -/
theorem C6_counterexample :
    ∃ r, normalizeDate ⟨9999, 6, 1⟩ "99990101" "y" = .ok r
      ∧ key ⟨9999, 6, 1⟩ ≤ key r
      ∧ normalizeDate ⟨9999, 6, 1⟩ (formatStr r) "y" ≠ .ok r := by
  have hnv : ValidDate ⟨9999, 6, 1⟩ := by decide
  have hparse : parseDate "99990101" = some ⟨9999, 1, 1⟩ := by decide
  have hnorm := normalizeDate_past_rule ⟨9999, 6, 1⟩ ⟨9999, 1, 1⟩ "99990101" "y"
    (by decide) hparse (by decide) (by decide)
  obtain ⟨r, hok, hvr, hg, hk⟩ := nextDate_ok ⟨9999, 6, 1⟩ ⟨9999, 1, 1⟩ "99990101" "y"
    hnv le_rfl hparse (Or.inl (by decide))
  refine ⟨r, by rw [hnorm]; exact hok, le_of_lt hk, ?_⟩
  have hry : 10000 ≤ r.year := by
    rcases nextDate_ok_inv ⟨9999, 6, 1⟩ ⟨9999, 1, 1⟩ "99990101" "y" r hparse hok with
      ⟨_, hloop⟩ | ⟨v, hl2, _⟩ | ⟨hl3, _⟩
    · have hspec := loopIter_spec addOneYear ⟨9999, 6, 1⟩ (fun d => 10000 ≤ d.year)
        (by intro d hd _; rw [addOneYear_year]; omega)
        FUEL (addOneYear ⟨9999, 1, 1⟩) r (by decide) hloop
      exact hspec.1
    · exact absurd hl2 (by decide)
    · exact absurd hl3 (by decide)
  have hlen : 9 ≤ (fmtD r).length := fmtD_length_big r hry
  have hlen2 : (formatStr r).toList.length ≠ 8 := by
    rw [formatStr_toList, List.length_map]
    omega
  have hne2 : formatStr r ≠ "" := by
    intro hc
    have h0 : (formatStr r).toList.length = 0 := by rw [hc]; rfl
    rw [formatStr_toList, List.length_map] at h0
    omega
  rw [normalizeDate_parseFail ⟨9999, 6, 1⟩ (formatStr r) "y" hne2
    (parseDate_eq_none_of_len (formatStr r) hlen2)]
  simp

/-- C6 (amended): normalization is idempotent on its own output provided the
output is representable in the eight-character format (year at most 9999):
feeding the formatted result back with the same rule returns it unchanged. -/
theorem C6_amended_idempotent (now r : GoDate) (ds rep : String)
    (hnv : ValidDate now) (hny : now.year ≤ 9999)
    (hok : normalizeDate now ds rep = .ok r) (hge : key now ≤ key r)
    (hry : r.year ≤ 9999) :
    normalizeDate now (formatStr r) rep = .ok r := by
  have hvr : ValidDate r := by
    rcases normalizeDate_ok_inv now ds rep r hok with hrn | hparse | ⟨pd, hpd, hnd⟩
    · rw [hrn]; exact hnv
    · exact (parseDate_valid ds r hparse).1
    · exact nextDate_ok_valid now pd ds rep r hpd hnd
  exact normalizeDate_keep now r (formatStr r) rep hnv hny (parse_format r hvr hry) hge

theorem C6_witness :
    (ValidDate ⟨2024, 3, 1⟩ ∧ (2024 : Nat) ≤ 9999
      ∧ normalizeDate ⟨2024, 3, 1⟩ "20230301" "y" = .ok ⟨2025, 3, 1⟩
      ∧ key ⟨2024, 3, 1⟩ ≤ key ⟨2025, 3, 1⟩ ∧ (2025 : Nat) ≤ 9999)
    ∧ normalizeDate ⟨2024, 3, 1⟩ (formatStr ⟨2025, 3, 1⟩) "y" = .ok ⟨2025, 3, 1⟩ := by
  refine ⟨⟨by decide, by decide, by decide, by decide, by decide⟩, ?_⟩
  exact C6_amended_idempotent ⟨2024, 3, 1⟩ ⟨2025, 3, 1⟩ "20230301" "y"
    (by decide) (by decide) (by decide) (by decide) (by decide)
